import Mathlib

/-!
Verification development for the JSON-Schema normalizer in
`src/src-tauri/src/proxy/common/json_schema.rs`.

The Rust code mutates one `serde_json::Value` tree in place.  We embed the
value tree as the inductive `Json` (numbers are modelled as integers; the
claims under study only involve integer numerals) and the in-place mutation
as a pure tree-to-tree transform.  Objects are association lists in insertion
order with unique keys in any real schema; `serde_json::Map::remove`,
`get`, `insert` and `entry(..).or_insert_with(..)` are modelled by `jremove`,
`jget`, `jinsert` and `entryOrInsert`.

`flatten_refs` recurses again on the same map after merging a referenced
definition, so it need not terminate on cyclic definition tables; both it and
the cleaning pass are therefore given explicit fuel and return `none` exactly
when the fuel runs out.  Every result of the form `some r` agrees with the
Rust execution; a terminating Rust execution is matched by every sufficiently
large fuel.  Rust's `String::to_lowercase` is modelled by the ASCII
lower-casing `strToLower` (the `type` values of JSON schemas are ASCII,
where the two agree — see `strToLower_eq_toLower`).
-/

inductive Json where
  | null : Json
  | bool (b : Bool) : Json
  | num (n : Int) : Json
  | str (s : String) : Json
  | arr (elems : List Json) : Json
  | obj (entries : List (String × Json)) : Json
deriving Repr

abbrev JObj := List (String × Json)

/-- Model of `serde_json::Map::get`: the value at the first entry with key `k`. -/
def jget (k : String) (m : JObj) : Option Json :=
  (m.find? (fun kv => kv.1 == k)).map (fun kv => kv.2)

/-- Model of `serde_json::Map::contains_key`. -/
def hasKey (k : String) (m : JObj) : Bool :=
  (jget k m).isSome

/-- Model of the removal effect of `serde_json::Map::remove` (the removed
value itself is `jget k m`). -/
def jremove (k : String) (m : JObj) : JObj :=
  m.filter (fun kv => !(kv.1 == k))

/-- Model of `serde_json::Map::insert` (overwrite). -/
def jinsert (k : String) (v : Json) (m : JObj) : JObj :=
  if hasKey k m then m.map (fun kv => if kv.1 = k then (kv.1, v) else kv)
  else m ++ [(k, v)]

/-- Model of `map.entry(k).or_insert_with(|| v)`: insert only when absent. -/
def entryOrInsert (k : String) (v : Json) (m : JObj) : JObj :=
  if hasKey k m then m else m ++ [(k, v)]

/-- Model of `serde_json::Map::extend`: later entries overwrite earlier ones. -/
def extendOverwrite (base extra : JObj) : JObj :=
  extra.foldl (fun acc kv => jinsert kv.1 kv.2 acc) base

/-- Characters of the current segment after the last slash seen so far
(the splitting loop behind `lastSegment`). -/
def lastSegAux (cur : List Char) : List Char → List Char
  | [] => cur
  | c :: rest => if c = '/' then lastSegAux [] rest else lastSegAux (cur ++ [c]) rest

/-- Model of `ref_path.split('/').last().unwrap_or(&ref_path)`: the final
`/`-delimited segment of a reference path (the whole path when it has no
slash; the empty string after a trailing slash — `split` never yields an
empty list, so the `unwrap_or` fallback is never taken). -/
def lastSegment (p : String) : String :=
  String.mk (lastSegAux [] p.data)

/-- Lower-case hexadecimal digit, used by the JSON string escaper. -/
def hexDigit (n : Nat) : Char :=
  if n < 10 then Char.ofNat (48 + n) else Char.ofNat (87 + n)

/-- Escape one character the way `serde_json` serializes string contents. -/
def escapeChar (c : Char) : String :=
  if c = '"' then "\\\""
  else if c = '\\' then "\\\\"
  else if c = '\x08' then "\\b"
  else if c = '\x0c' then "\\f"
  else if c = '\n' then "\\n"
  else if c = '\r' then "\\r"
  else if c = '\t' then "\\t"
  else if c.toNat < 32 then
    "\\u00" ++ String.mk [hexDigit (c.toNat / 16), hexDigit (c.toNat % 16)]
  else String.singleton c

/-- A JSON string literal as `serde_json` prints it. -/
def escapeString (s : String) : String :=
  "\"" ++ String.join (s.data.map escapeChar) ++ "\""

mutual
/-- Model of `serde_json::Value`'s `Display` (compact serialization), used by
`format!("{}: {}", label, val)` in `clean_json_schema_recursive`. -/
def Json.render : Json → String
  | Json.null => "null"
  | Json.bool b => if b then "true" else "false"
  | Json.num n => toString n
  | Json.str s => escapeString s
  | Json.arr l => "[" ++ Json.renderItems l ++ "]"
  | Json.obj m => "\x7b" ++ Json.renderEntries m ++ "\x7d"

/-- Comma-joined rendering of array elements. -/
def Json.renderItems : List Json → String
  | [] => ""
  | [x] => Json.render x
  | x :: rest => Json.render x ++ "," ++ Json.renderItems rest

/-- Comma-joined rendering of object entries. -/
def Json.renderEntries : List (String × Json) → String
  | [] => ""
  | [(k, v)] => escapeString k ++ ":" ++ Json.render v
  | (k, v) :: rest => escapeString k ++ ":" ++ Json.render v ++ "," ++ Json.renderEntries rest
end

/-- Apply an `Option`-valued transform to each value of an object, keeping
keys; `none` propagates (it only ever signals fuel exhaustion). -/
def optMapEntries (f : Json → Option Json) : JObj → Option JObj
  | [] => some []
  | (k, v) :: rest => do
      let w ← f v
      let rest2 ← optMapEntries f rest
      pure ((k, w) :: rest2)

/-- Apply an `Option`-valued transform to each element of an array. -/
def optMapItems (f : Json → Option Json) : List Json → Option (List Json)
  | [] => some []
  | x :: rest => do
      let y ← f x
      let rest2 ← optMapItems f rest
      pure (y :: rest2)

/-- The `validation_fields` table of `clean_json_schema_recursive`:
`(keyword, label)` pairs, in source order. -/
def validation_fields : List (String × String) :=
  [("minLength", "minLen"),
   ("maxLength", "maxLen"),
   ("minimum", "min"),
   ("maximum", "max"),
   ("minItems", "minItems"),
   ("maxItems", "maxItems"),
   ("exclusiveMinimum", "exclMin"),
   ("exclusiveMaximum", "exclMax"),
   ("multipleOf", "multipleOf"),
   ("pattern", "pattern")]

/-- Step 1 of the cleaner: remove each present validation keyword in table
order and record `"<label>: <value>"` strings. -/
def collectConstraints : List (String × String) → JObj → List String × JObj
  | [], m => ([], m)
  | (field, label) :: rest, m =>
    match jget field m with
    | some v =>
        let res := collectConstraints rest (jremove field m)
        ((label ++ ": " ++ v.render) :: res.1, res.2)
    | none => collectConstraints rest m

/-- The string appended to `description` when constraints were collected. -/
def validationSuffix (constraints : List String) : String :=
  " [Validation: " ++ String.intercalate ", " constraints ++ "]"

/-- Step 2 of the cleaner: when constraints were collected, append the
validation suffix to `description`, creating an empty-string `description`
when absent; a non-string `description` is left alone. -/
def appendValidation (constraints : List String) (m : JObj) : JObj :=
  if constraints.isEmpty then m
  else
    let m1 := if hasKey "description" m then m else m ++ [("description", Json.str "")]
    m1.map (fun kv =>
      if kv.1 = "description" then
        match kv.2 with
        | Json.str s => (kv.1, Json.str (s ++ validationSuffix constraints))
        | v => (kv.1, v)
      else kv)

/-- The `other_fields_to_remove` table of `clean_json_schema_recursive`. -/
def other_fields_to_remove : List String :=
  ["$schema",
   "additionalProperties",
   "enumCaseInsensitive",
   "enumNormalizeWhitespace",
   "uniqueItems",
   "format",
   "default"]

/-- Step 3 of the cleaner: remove each listed key unconditionally. -/
def removeKeys (ks : List String) (m : JObj) : JObj :=
  ks.foldl (fun acc k => jremove k acc) m

/-- Model of Rust `String::to_lowercase` (over the ASCII range relevant to
JSON-Schema `type` names it agrees with `String.toLower`, see
`strToLower_eq_toLower`; defined structurally so it computes by `rfl`). -/
def strToLower (s : String) : String :=
  String.mk (s.data.map Char.toLower)

/-- Lowercase a string value, leave any other value untouched (the per-element
action on array-valued `type`s). -/
def lowerIfString : Json → Json
  | Json.str s => Json.str (strToLower s)
  | v => v

/-- The in-place rewrite of a `type` value: lowercase a string, lowercase the
string elements of an array, leave anything else untouched. -/
def lowerTypeValue : Json → Json
  | Json.str s => Json.str (strToLower s)
  | Json.arr items => Json.arr (items.map lowerIfString)
  | v => v

/-- Step 4 of the cleaner: rewrite the value of the `type` key in place. -/
def normalizeTypeField (m : JObj) : JObj :=
  m.map (fun kv => if kv.1 = "type" then (kv.1, lowerTypeValue kv.2) else kv)

/-- Model of `clean_json_schema_recursive`: the four steps on an object's own
keys, then recursion into every value; recursion into every array element;
scalars pass through. -/
def clean_json_schema_recursive : Nat → Json → Option Json
  | 0, _ => none
  | fuel+1, Json.obj m =>
      let res := collectConstraints validation_fields m
      let m2 := appendValidation res.1 res.2
      let m3 := removeKeys other_fields_to_remove m2
      let m4 := normalizeTypeField m3
      (optMapEntries (fun v => clean_json_schema_recursive fuel v) m4).map Json.obj
  | fuel+1, Json.arr l =>
      (optMapItems (fun v => clean_json_schema_recursive fuel v) l).map Json.arr
  | _+1, v => some v

/-- The child traversal of `flatten_refs`: apply `f` to every object value and
to every object element of every array value; other values pass through. -/
def flattenChildren (f : JObj → Option JObj) (m : JObj) : Option JObj :=
  optMapEntries (fun v =>
    match v with
    | Json.obj childMap => (f childMap).map Json.obj
    | Json.arr items =>
        (optMapItems (fun item =>
          match item with
          | Json.obj itemMap => (f itemMap).map Json.obj
          | other => some other) items).map Json.arr
    | _other => some v) m

/-- Model of `map.entry(k).or_insert_with(|| v.clone())` iterated over a
referenced definition's entries: copy each key only where absent. -/
def mergeAbsent (m defMap : JObj) : JObj :=
  defMap.foldl (fun acc kv => entryOrInsert kv.1 kv.2 acc) m

/-- Model of `flatten_refs`: remove a `$ref` key; when its string path's last
segment names an object in the definition table, merge that definition's
entries (without overwriting) and re-run on the same map; then traverse the
children.  Fuel `none` signals the unbounded recursion of a cyclic table. -/
def flatten_refs (defs : JObj) : Nat → JObj → Option JObj
  | 0, _ => none
  | fuel+1, m =>
      let step : Option JObj :=
        match jget "$ref" m with
        | some (Json.str refPath) =>
            let m1 := jremove "$ref" m
            match jget (lastSegment refPath) defs with
            | some (Json.obj defMap) => flatten_refs defs fuel (mergeAbsent m1 defMap)
            | _ => some m1
        | some _ => some (jremove "$ref" m)
        | none => some m
      step.bind (fun m2 => flattenChildren (fun cm => flatten_refs defs fuel cm) m2)

/-- The definition-table extraction at the head of `clean_json_schema`:
remove `$defs` and `definitions` from the root map and merge their object
contents (later source overwrites) into one table. -/
def extractDefs (m : JObj) : JObj × JObj :=
  let defs1 : JObj :=
    match jget "$defs" m with
    | some (Json.obj d) => extendOverwrite [] d
    | _ => []
  let m1 := jremove "$defs" m
  let defs2 : JObj :=
    match jget "definitions" m1 with
    | some (Json.obj d) => extendOverwrite defs1 d
    | _ => defs1
  let m2 := jremove "definitions" m1
  (defs2, m2)

/-- Model of the entry point `clean_json_schema`: extract the definition
table at the root, run `flatten_refs` only when the table is non-empty, then
run the recursive cleaner on the whole tree. -/
def clean_json_schema (fuel : Nat) (value : Json) : Option Json :=
  let step1 : Option Json :=
    match value with
    | Json.obj m =>
        let res := extractDefs m
        if res.1.isEmpty then some (Json.obj res.2)
        else (flatten_refs res.1 fuel res.2).map Json.obj
    | v => some v
  step1.bind (fun v1 => clean_json_schema_recursive fuel v1)

/-- Deep containment: `ContainsNode t w` says the node `w` occurs somewhere
in the tree `t` (the whole tree, every object value, every array element). -/
inductive ContainsNode : Json → Json → Prop where
  | refl (v : Json) : ContainsNode v v
  | inObj {m : JObj} {k : String} {v w : Json} :
      (k, v) ∈ m → ContainsNode v w → ContainsNode (Json.obj m) w
  | inArr {l : List Json} {x w : Json} :
      x ∈ l → ContainsNode x w → ContainsNode (Json.arr l) w

/-- The object nodes `flatten_refs` actually visits: the map itself, object
values, and object elements of array values — but not objects that sit
inside arrays nested directly within other arrays. -/
inductive FlatReach : Json → Json → Prop where
  | refl (m : JObj) : FlatReach (Json.obj m) (Json.obj m)
  | child {m : JObj} {k : String} {cm : JObj} {w : Json} :
      (k, Json.obj cm) ∈ m → FlatReach (Json.obj cm) w → FlatReach (Json.obj m) w
  | arrElem {m : JObj} {k : String} {items : List Json} {im : JObj} {w : Json} :
      (k, Json.arr items) ∈ m → Json.obj im ∈ items →
      FlatReach (Json.obj im) w → FlatReach (Json.obj m) w

/-- The keys that a completed transform must have removed from every node:
the seven unconditionally dropped fields and the ten validation keywords. -/
def removed_key_names : List String :=
  other_fields_to_remove ++ validation_fields.map Prod.fst

/-- The body `{"$ref": "#/$defs/A"}` of the self-referential definition. -/
def cyclicMap : JObj := [("$ref", Json.str "#/$defs/A")]

/-- A definition table in which `A` refers to itself. -/
def cyclicDefs : JObj := [("A", Json.obj cyclicMap)]

/-- A root schema whose `$defs` entry `A` is self-referential and which
itself references `A`. -/
def cyclicRoot : Json :=
  Json.obj [("$defs", Json.obj [("A", Json.obj cyclicMap)]),
            ("$ref", Json.str "#/$defs/A")]

mutual
/-- Nesting depth of a JSON tree (scalars have depth zero). -/
def Json.depth : Json → Nat
  | Json.null => 0
  | Json.bool _ => 0
  | Json.num _ => 0
  | Json.str _ => 0
  | Json.arr l => 1 + Json.depthItems l
  | Json.obj m => 1 + Json.depthEntries m

/-- Maximum depth of the elements of an array. -/
def Json.depthItems : List Json → Nat
  | [] => 0
  | x :: rest => max (Json.depth x) (Json.depthItems rest)

/-- Maximum depth of the values of an object. -/
def Json.depthEntries : List (String × Json) → Nat
  | [] => 0
  | kv :: rest => max (Json.depth kv.2) (Json.depthEntries rest)
end

/-- Whether a tree's root (if an object) carries neither `$defs` nor
`definitions`. -/
def rootDefsFree : Json → Bool
  | Json.obj m => !(hasKey "$defs" m || hasKey "definitions" m)
  | _ => true

/-- Modelled from the spec's wording of constraint softening: the present
keywords of the fixed `validation_fields` list, in that exact order, each
rendered as `"<label>: <value>"` against the ORIGINAL node.  Compared below
with the source-translated `collectConstraints`. -/
def constraintStringsSpec (m : JObj) : List String :=
  validation_fields.filterMap
    (fun fl => (jget fl.1 m).map (fun v => fl.2 ++ ": " ++ v.render))

/-- Whether the definition table extracted at the root would be empty (the
transform then skips `flatten_refs` entirely). -/
def rootTableEmpty : Json → Bool
  | Json.obj m => (extractDefs m).1.isEmpty
  | _ => true


/-- The rank contribution of an object's own `$ref` key under a weight
assignment `bw` on definition names: when the `$ref` value is a string whose
last path segment names an object-valued definition in the table, the weight
assigned to that name; otherwise zero (no merge can fire at this node). -/
def refTermW (defs : JObj) (bw : String → Nat) (m : JObj) : Nat :=
  match jget "$ref" m with
  | some (Json.str p) =>
      match jget (lastSegment p) defs with
      | some (Json.obj _) => bw (lastSegment p)
      | _ => 0
  | _ => 0

mutual
/-- Weight of a tree relative to a definition table and a weight assignment
on definition names: node count plus, at every object whose `$ref` resolves
to an object-valued definition, the weight assigned to the referenced name.
Under a certifying assignment (`WeightCert`) this weight strictly decreases
across the merge-and-rerun step of `flatten_refs`. -/
def refWeight (defs : JObj) (bw : String → Nat) : Json → Nat
  | Json.null => 0
  | Json.bool _ => 0
  | Json.num _ => 0
  | Json.str _ => 0
  | Json.arr l => 1 + refWeightItems defs bw l
  | Json.obj m => 1 + refWeightEntries defs bw m + refTermW defs bw m

/-- Sum of the weights of an array's elements. -/
def refWeightItems (defs : JObj) (bw : String → Nat) : List Json → Nat
  | [] => 0
  | x :: rest => refWeight defs bw x + refWeightItems defs bw rest

/-- Sum of the weights of an object's values. -/
def refWeightEntries (defs : JObj) (bw : String → Nat) : List (String × Json) → Nat
  | [] => 0
  | kv :: rest => refWeight defs bw kv.2 + refWeightEntries defs bw rest
end

/-- A weight certificate for a definition table: every object-valued
definition weighs strictly less than the weight assigned to its own name.
This is the formal shape of the acyclic-reference-graph precondition: an
acyclic table is certified by weighing names along a topological order of
its reference graph (the empty table by any assignment, the Address table
of the reference-flattening example by `constWeight`), while the
self-referential `cyclicDefs` admits no certificate at all. -/
def WeightCert (defs : JObj) (bw : String → Nat) : Prop :=
  ∀ B b, jget B defs = some (Json.obj b) → refWeight defs bw (Json.obj b) < bw B

/-- The constant weight assignment that certifies the Address table. -/
def constWeight : String → Nat := fun _ => 4

/-- The `Address` definition body of the spec's reference-flattening
example. -/
def addressBody : JObj :=
  [("type", Json.str "object"),
   ("properties", Json.obj [("city", Json.obj [("type", Json.str "string")])])]

/-- The root of the spec's reference-flattening example: a `$defs` table
holding `Address` and a `home` object referencing it. -/
def addressRoot : JObj :=
  [("$defs", Json.obj [("Address", Json.obj addressBody)]),
   ("home", Json.obj [("$ref", Json.str "#/$defs/Address")])]


/-! ### Basic association-list lemmas -/

theorem jget_nil (k : String) : jget k [] = none := rfl

theorem jget_cons (k k1 : String) (v : Json) (rest : JObj) :
    jget k ((k1, v) :: rest) = if k1 = k then some v else jget k rest := by
  by_cases h : k1 = k
  · simp [jget, List.find?_cons_of_pos, h]
  · simp [jget, List.find?_cons_of_neg, h]

theorem hasKey_nil (k : String) : hasKey k [] = false := rfl

theorem hasKey_cons (k k1 : String) (v : Json) (rest : JObj) :
    hasKey k ((k1, v) :: rest) = if k1 = k then true else hasKey k rest := by
  by_cases h : k1 = k <;> simp [hasKey, jget_cons, h]

theorem jremove_nil (k : String) : jremove k [] = [] := rfl

theorem jremove_cons (k k1 : String) (v : Json) (rest : JObj) :
    jremove k ((k1, v) :: rest) =
      if k1 = k then jremove k rest else (k1, v) :: jremove k rest := by
  by_cases h : k1 = k <;> simp [jremove, List.filter_cons, h]

theorem hasKey_false_iff (k : String) (m : JObj) :
    hasKey k m = false ↔ jget k m = none := by
  cases h : jget k m <;> simp [hasKey, h]

theorem hasKey_true_iff (k : String) (m : JObj) :
    hasKey k m = true ↔ ∃ v, jget k m = some v := by
  simp [hasKey, Option.isSome_iff_exists]

theorem jget_jremove_self (k : String) (m : JObj) : jget k (jremove k m) = none := by
  induction m with
  | nil => rfl
  | cons kv rest ih =>
    obtain ⟨k1, v⟩ := kv
    by_cases h : k1 = k <;> simp [jremove_cons, jget_cons, h, ih]

theorem jget_jremove_ne (k k2 : String) (m : JObj) (h : k ≠ k2) :
    jget k (jremove k2 m) = jget k m := by
  induction m with
  | nil => rfl
  | cons kv rest ih =>
    obtain ⟨k1, v⟩ := kv
    by_cases h1 : k1 = k2
    · subst h1
      simp [jremove_cons, jget_cons, Ne.symm h, ih]
    · by_cases h2 : k1 = k <;> simp [jremove_cons, jget_cons, h1, h2, h, ih]

theorem hasKey_jremove_self (k : String) (m : JObj) : hasKey k (jremove k m) = false := by
  simp [hasKey_false_iff, jget_jremove_self]

theorem hasKey_jremove_ne (k k2 : String) (m : JObj) (h : k ≠ k2) :
    hasKey k (jremove k2 m) = hasKey k m := by
  simp [hasKey, jget_jremove_ne k k2 m h]

theorem mem_jremove (kv : String × Json) (k : String) (m : JObj) :
    kv ∈ jremove k m ↔ kv ∈ m ∧ kv.1 ≠ k := by
  simp [jremove, List.mem_filter]

theorem jremove_eq_self (k : String) (m : JObj) (h : hasKey k m = false) :
    jremove k m = m := by
  induction m with
  | nil => rfl
  | cons kv rest ih =>
    obtain ⟨k1, v⟩ := kv
    rw [hasKey_cons] at h
    by_cases h1 : k1 = k
    · simp [h1] at h
    · simp [h1] at h
      simp [jremove_cons, h1, ih h]

theorem jget_append (k : String) (m m2 : JObj) :
    jget k (m ++ m2) = if hasKey k m then jget k m else jget k m2 := by
  induction m with
  | nil => simp [jget_nil, hasKey_nil]
  | cons kv rest ih =>
    obtain ⟨k1, v⟩ := kv
    by_cases h : k1 = k <;> simp [jget_cons, hasKey_cons, h, ih]

theorem jget_eq_none_of_not_hasKey (k : String) (m : JObj) (h : hasKey k m = false) :
    jget k m = none := (hasKey_false_iff k m).mp h

theorem hasKey_of_mem (k : String) (v : Json) (m : JObj) (h : (k, v) ∈ m) :
    hasKey k m = true := by
  induction m with
  | nil => simp at h
  | cons kv rest ih =>
    obtain ⟨k1, v1⟩ := kv
    rcases List.mem_cons.mp h with h1 | h1
    · obtain ⟨rfl, rfl⟩ := Prod.mk.injEq .. ▸ h1
      simp_all [hasKey_cons]
    · by_cases h2 : k1 = k <;> simp [hasKey_cons, h2, ih h1]

theorem exists_mem_of_jget (k : String) (v : Json) (m : JObj) (h : jget k m = some v) :
    (k, v) ∈ m := by
  induction m with
  | nil => simp [jget_nil] at h
  | cons kv rest ih =>
    obtain ⟨k1, v1⟩ := kv
    rw [jget_cons] at h
    by_cases h1 : k1 = k
    · subst h1
      simp at h
      simp [h]
    · simp [h1] at h
      exact List.mem_cons_of_mem _ (ih h)

/-! ### Lemmas about the option-valued map combinators -/

theorem optMapEntries_forall2 (f : Json → Option Json) (m m2 : JObj)
    (h : optMapEntries f m = some m2) :
    List.Forall₂ (fun a b => a.1 = b.1 ∧ f a.2 = some b.2) m m2 := by
  induction m generalizing m2 with
  | nil =>
    simp only [optMapEntries, Option.some.injEq] at h
    subst h
    exact List.Forall₂.nil
  | cons kv rest ih =>
    obtain ⟨k, v⟩ := kv
    simp only [optMapEntries, Option.bind_eq_bind, Option.pure_def, Option.bind_eq_some,
      Option.some.injEq] at h
    obtain ⟨w, hw, rest2, hrest2, heq⟩ := h
    subst heq
    exact List.Forall₂.cons ⟨rfl, hw⟩ (ih _ hrest2)

theorem optMapItems_forall2 (f : Json → Option Json) (l l2 : List Json)
    (h : optMapItems f l = some l2) :
    List.Forall₂ (fun a b => f a = some b) l l2 := by
  induction l generalizing l2 with
  | nil =>
    simp only [optMapItems, Option.some.injEq] at h
    subst h
    exact List.Forall₂.nil
  | cons x rest ih =>
    simp only [optMapItems, Option.bind_eq_bind, Option.pure_def, Option.bind_eq_some,
      Option.some.injEq] at h
    obtain ⟨y, hy, rest2, hrest2, heq⟩ := h
    subst heq
    exact List.Forall₂.cons hy (ih _ hrest2)

theorem optMapEntries_jget (f : Json → Option Json) (m m2 : JObj)
    (h : optMapEntries f m = some m2) (k : String) :
    jget k m2 = (jget k m).bind f := by
  induction m generalizing m2 with
  | nil =>
    simp only [optMapEntries, Option.some.injEq] at h
    subst h
    simp [jget_nil]
  | cons kv rest ih =>
    obtain ⟨k1, v⟩ := kv
    simp only [optMapEntries, Option.bind_eq_bind, Option.pure_def, Option.bind_eq_some,
      Option.some.injEq] at h
    obtain ⟨w, hw, rest2, hrest2, heq⟩ := h
    subst heq
    by_cases h1 : k1 = k
    · simp [jget_cons, h1, hw]
    · simp [jget_cons, h1, ih _ hrest2]

theorem optMapEntries_hasKey (f : Json → Option Json) (m m2 : JObj)
    (h : optMapEntries f m = some m2) (k : String) :
    hasKey k m2 = hasKey k m := by
  induction m generalizing m2 with
  | nil =>
    simp only [optMapEntries, Option.some.injEq] at h
    subst h
    rfl
  | cons kv rest ih =>
    obtain ⟨k1, v⟩ := kv
    simp only [optMapEntries, Option.bind_eq_bind, Option.pure_def, Option.bind_eq_some,
      Option.some.injEq] at h
    obtain ⟨w, _hw, rest2, hrest2, heq⟩ := h
    subst heq
    by_cases h1 : k1 = k <;> simp [hasKey_cons, h1, ih _ hrest2]

theorem optMapEntries_mem (f : Json → Option Json) (m m2 : JObj)
    (h : optMapEntries f m = some m2) (kv : String × Json) (hm : kv ∈ m2) :
    ∃ v, (kv.1, v) ∈ m ∧ f v = some kv.2 := by
  induction m generalizing m2 with
  | nil =>
    simp only [optMapEntries, Option.some.injEq] at h
    subst h
    simp at hm
  | cons kv1 rest ih =>
    obtain ⟨k1, v1⟩ := kv1
    simp only [optMapEntries, Option.bind_eq_bind, Option.pure_def, Option.bind_eq_some,
      Option.some.injEq] at h
    obtain ⟨w, hw, rest2, hrest2, heq⟩ := h
    subst heq
    rcases List.mem_cons.mp hm with h1 | h1
    · subst h1
      exact ⟨v1, List.mem_cons_self _ _, hw⟩
    · obtain ⟨v, hv1, hv2⟩ := ih _ hrest2 h1
      exact ⟨v, List.mem_cons_of_mem _ hv1, hv2⟩

theorem optMapItems_mem (f : Json → Option Json) (l l2 : List Json)
    (h : optMapItems f l = some l2) (y : Json) (hy : y ∈ l2) :
    ∃ x, x ∈ l ∧ f x = some y := by
  induction l generalizing l2 with
  | nil =>
    simp only [optMapItems, Option.some.injEq] at h
    subst h
    simp at hy
  | cons x rest ih =>
    simp only [optMapItems, Option.bind_eq_bind, Option.pure_def, Option.bind_eq_some,
      Option.some.injEq] at h
    obtain ⟨z, hz, rest2, hrest2, heq⟩ := h
    subst heq
    rcases List.mem_cons.mp hy with h1 | h1
    · subst h1
      exact ⟨x, List.mem_cons_self _ _, hz⟩
    · obtain ⟨x2, hx1, hx2⟩ := ih _ hrest2 h1
      exact ⟨x2, List.mem_cons_of_mem _ hx1, hx2⟩

theorem optMapEntries_fix (f : Json → Option Json) (m : JObj)
    (h : ∀ kv ∈ m, f kv.2 = some kv.2) :
    optMapEntries f m = some m := by
  induction m with
  | nil => rfl
  | cons kv rest ih =>
    obtain ⟨k, v⟩ := kv
    have h1 := h (k, v) (List.mem_cons_self _ _)
    simp only [optMapEntries, Option.bind_eq_bind]
    rw [h1, ih (fun kv2 hkv2 => h kv2 (List.mem_cons_of_mem _ hkv2))]
    rfl

theorem optMapItems_fix (f : Json → Option Json) (l : List Json)
    (h : ∀ x ∈ l, f x = some x) :
    optMapItems f l = some l := by
  induction l with
  | nil => rfl
  | cons x rest ih =>
    have h1 := h x (List.mem_cons_self _ _)
    simp only [optMapItems, Option.bind_eq_bind]
    rw [h1, ih (fun y hy => h y (List.mem_cons_of_mem _ hy))]
    rfl

theorem optMapEntries_isSome (f : Json → Option Json) (m : JObj)
    (h : ∀ kv ∈ m, (f kv.2).isSome) :
    (optMapEntries f m).isSome := by
  induction m with
  | nil => rfl
  | cons kv rest ih =>
    obtain ⟨k, v⟩ := kv
    obtain ⟨w, hw⟩ := Option.isSome_iff_exists.mp (h (k, v) (List.mem_cons_self _ _))
    obtain ⟨rest2, hrest2⟩ := Option.isSome_iff_exists.mp
      (ih (fun kv2 hkv2 => h kv2 (List.mem_cons_of_mem _ hkv2)))
    simp [optMapEntries, hw, hrest2]

theorem optMapItems_isSome (f : Json → Option Json) (l : List Json)
    (h : ∀ x ∈ l, (f x).isSome) :
    (optMapItems f l).isSome := by
  induction l with
  | nil => rfl
  | cons x rest ih =>
    obtain ⟨y, hy⟩ := Option.isSome_iff_exists.mp (h x (List.mem_cons_self _ _))
    obtain ⟨rest2, hrest2⟩ := Option.isSome_iff_exists.mp
      (ih (fun z hz => h z (List.mem_cons_of_mem _ hz)))
    simp [optMapItems, hy, hrest2]

theorem optMapEntries_mono_some (f g : Json → Option Json)
    (hfg : ∀ v w, f v = some w → g v = some w) (m m2 : JObj)
    (h : optMapEntries f m = some m2) : optMapEntries g m = some m2 := by
  induction m generalizing m2 with
  | nil => exact h
  | cons kv rest ih =>
    obtain ⟨k, v⟩ := kv
    simp only [optMapEntries, Option.bind_eq_bind, Option.pure_def, Option.bind_eq_some,
      Option.some.injEq] at h
    obtain ⟨w, hw, rest2, hrest2, heq⟩ := h
    simp only [optMapEntries, Option.bind_eq_bind, Option.pure_def]
    rw [hfg v w hw, ih _ hrest2]
    simp [heq]

theorem optMapItems_mono_some (f g : Json → Option Json)
    (hfg : ∀ v w, f v = some w → g v = some w) (l l2 : List Json)
    (h : optMapItems f l = some l2) : optMapItems g l = some l2 := by
  induction l generalizing l2 with
  | nil => exact h
  | cons x rest ih =>
    simp only [optMapItems, Option.bind_eq_bind, Option.pure_def, Option.bind_eq_some,
      Option.some.injEq] at h
    obtain ⟨y, hy, rest2, hrest2, heq⟩ := h
    simp only [optMapItems, Option.bind_eq_bind, Option.pure_def]
    rw [hfg x y hy, ih _ hrest2]
    simp [heq]

/-! ### Lower-casing lemmas -/

theorem char_toNat_ofNat_valid (n : Nat) (h : n.isValidChar) : (Char.ofNat n).toNat = n := by
  rw [Char.ofNat, dif_pos h]
  rfl

theorem char_toLower_idem (c : Char) : c.toLower.toLower = c.toLower := by
  unfold Char.toLower
  by_cases h : c.toNat ≥ 65 ∧ c.toNat ≤ 90
  · rw [if_pos h]
    have hval : (c.toNat + 32).isValidChar := Or.inl (by omega)
    have h2 : (Char.ofNat (c.toNat + 32)).toNat = c.toNat + 32 := char_toNat_ofNat_valid _ hval
    rw [if_neg]
    rw [h2]
    omega
  · rw [if_neg h, if_neg h]

theorem strToLower_idem (s : String) : strToLower (strToLower s) = strToLower s := by
  unfold strToLower
  congr 1
  rw [List.map_map]
  apply List.map_congr_left
  intro c _
  exact char_toLower_idem c

theorem strToLower_eq_toLower (s : String) : strToLower s = s.toLower := by
  rw [String.toLower, String.map_eq]
  rfl

/-! ### Lemmas about `collectConstraints` -/

theorem mem_collectConstraints_snd (fs : List (String × String)) (m : JObj)
    (kv : String × Json) (h : kv ∈ (collectConstraints fs m).2) : kv ∈ m := by
  induction fs generalizing m with
  | nil => exact h
  | cons fl rest ih =>
    obtain ⟨field, label⟩ := fl
    simp only [collectConstraints] at h
    cases h1 : jget field m with
    | some v =>
      rw [h1] at h
      exact ((mem_jremove kv field m).mp (ih _ h)).1
    | none =>
      rw [h1] at h
      exact ih _ h

theorem hasKey_collectConstraints_mono (fs : List (String × String)) (m : JObj)
    (k : String) (h : hasKey k (collectConstraints fs m).2 = true) : hasKey k m = true := by
  obtain ⟨v, hv⟩ := (hasKey_true_iff ..).mp h
  exact hasKey_of_mem k v m (mem_collectConstraints_snd fs m _ (exists_mem_of_jget k v _ hv))

theorem hasKey_collectConstraints_of_mem (fs : List (String × String)) (m : JObj)
    (k l : String) (hin : (k, l) ∈ fs) : hasKey k (collectConstraints fs m).2 = false := by
  induction fs generalizing m with
  | nil => simp at hin
  | cons fl rest ih =>
    obtain ⟨field, label⟩ := fl
    simp only [collectConstraints]
    rcases List.mem_cons.mp hin with h1 | h1
    · have hk : field = k := by
        injection h1 with a b
        exact a.symm
      rw [hk]
      cases h2 : jget k m with
      | some v =>
        cases h3 : hasKey k (collectConstraints rest (jremove k m)).2 with
        | false => simp [h2, h3]
        | true =>
          have := hasKey_collectConstraints_mono rest (jremove k m) k h3
          rw [hasKey_jremove_self] at this
          exact absurd this (by simp)
      | none =>
        cases h3 : hasKey k (collectConstraints rest m).2 with
        | false => simp [h2, h3]
        | true =>
          have := hasKey_collectConstraints_mono rest m k h3
          simp [hasKey, h2] at this
    · cases h2 : jget field m with
      | some v => simpa [h2] using ih (jremove field m) h1
      | none => simpa [h2] using ih m h1

theorem jget_collectConstraints_not_mem (fs : List (String × String)) (m : JObj)
    (k : String) (hnot : ∀ l, (k, l) ∉ fs) :
    jget k (collectConstraints fs m).2 = jget k m := by
  induction fs generalizing m with
  | nil => rfl
  | cons fl rest ih =>
    obtain ⟨field, label⟩ := fl
    have hne : k ≠ field := by
      intro hk
      exact hnot label (by simp [hk])
    have hrest : ∀ l, (k, l) ∉ rest := fun l hl => hnot l (List.mem_cons_of_mem _ hl)
    simp only [collectConstraints]
    cases h1 : jget field m with
    | some v => rw [ih _ hrest, jget_jremove_ne _ _ _ hne]
    | none => exact ih _ hrest

theorem collectConstraints_of_absent (fs : List (String × String)) (m : JObj)
    (h : ∀ fl ∈ fs, hasKey fl.1 m = false) :
    collectConstraints fs m = ([], m) := by
  induction fs with
  | nil => rfl
  | cons fl rest ih =>
    obtain ⟨field, label⟩ := fl
    have h1 : jget field m = none :=
      (hasKey_false_iff ..).mp (h (field, label) (List.mem_cons_self _ _))
    simp only [collectConstraints, h1]
    exact ih (fun fl2 hfl2 => h fl2 (List.mem_cons_of_mem _ hfl2))

theorem collectConstraints_fst_spec (fs : List (String × String)) (m : JObj)
    (hnodup : (fs.map Prod.fst).Nodup) :
    (collectConstraints fs m).1 =
      fs.filterMap (fun fl => (jget fl.1 m).map (fun v => fl.2 ++ ": " ++ v.render)) := by
  induction fs generalizing m with
  | nil => rfl
  | cons fl rest ih =>
    obtain ⟨field, label⟩ := fl
    simp only [List.map_cons, List.nodup_cons] at hnodup
    obtain ⟨hfield, hrest⟩ := hnodup
    have hsame : ∀ fl2 ∈ rest, jget fl2.1 (jremove field m) = jget fl2.1 m := by
      intro fl2 hfl2
      apply jget_jremove_ne
      intro hk
      exact hfield (hk ▸ List.mem_map_of_mem Prod.fst hfl2)
    simp only [collectConstraints]
    cases h1 : jget field m with
    | some v =>
      simp only [List.filterMap_cons, h1, Option.map_some]
      rw [ih _ hrest]
      congr 1
      apply List.filterMap_congr
      intro fl2 hfl2
      rw [hsame fl2 hfl2]
    | none =>
      simp only [List.filterMap_cons, h1, Option.map_none]
      exact ih _ hrest

/-! ### Lemmas about `appendValidation` -/

theorem appendValidation_nil (m : JObj) : appendValidation [] m = m := by
  simp [appendValidation]

theorem jget_appendValidation_ne (cs : List String) (m : JObj) (k : String)
    (hk : k ≠ "description") : jget k (appendValidation cs m) = jget k m := by
  unfold appendValidation
  cases cs with
  | nil => simp
  | cons c rest =>
    simp only [List.isEmpty_cons, if_false, Bool.false_eq_true]
    set suffix := validationSuffix (c :: rest) with hsuffix
    have hmap : ∀ m0 : JObj, jget k (m0.map (fun kv =>
        if kv.1 = "description" then
          match kv.2 with
          | Json.str s => (kv.1, Json.str (s ++ suffix))
          | v => (kv.1, v)
        else kv)) = jget k m0 := by
      intro m0
      induction m0 with
      | nil => rfl
      | cons kv rest2 ih =>
        obtain ⟨k1, v1⟩ := kv
        by_cases h1 : k1 = "description"
        · subst h1
          cases v1 <;> simp [jget_cons, Ne.symm hk, ih]
        · by_cases h2 : k1 = k <;> simp [jget_cons, h1, h2, hk, ih]
    cases hd : hasKey "description" m with
    | true =>
      rw [if_pos rfl]
      exact hmap m
    | false =>
      rw [if_neg (by simp)]
      rw [hmap]
      rw [jget_append]
      by_cases h2 : hasKey k m
      · simp [h2]
      · have h3 : jget k m = none := (hasKey_false_iff ..).mp (by simp [h2])
        simp [h2, jget_cons, Ne.symm hk, jget_nil, h3]

theorem hasKey_appendValidation_ne (cs : List String) (m : JObj) (k : String)
    (hk : k ≠ "description") : hasKey k (appendValidation cs m) = hasKey k m := by
  simp [hasKey, jget_appendValidation_ne cs m k hk]

theorem jget_descmap (suffix : String) (m0 : JObj) :
    jget "description" (m0.map (fun kv =>
        if kv.1 = "description" then
          match kv.2 with
          | Json.str s => (kv.1, Json.str (s ++ suffix))
          | v => (kv.1, v)
        else kv)) =
      (jget "description" m0).map (fun v =>
        match v with
        | Json.str s => Json.str (s ++ suffix)
        | d => d) := by
  induction m0 with
  | nil => rfl
  | cons kv rest2 ih =>
    obtain ⟨k1, v1⟩ := kv
    by_cases h1 : k1 = "description"
    · subst h1
      cases v1 <;> simp [jget_cons]
    · simp [jget_cons, h1, ih]

theorem jget_appendValidation_desc (cs : List String) (m : JObj) (hcs : cs ≠ []) :
    jget "description" (appendValidation cs m) =
      some (match jget "description" m with
            | none => Json.str ("" ++ validationSuffix cs)
            | some (Json.str s) => Json.str (s ++ validationSuffix cs)
            | some d => d) := by
  unfold appendValidation
  cases cs with
  | nil => exact absurd rfl hcs
  | cons c rest =>
    rw [if_neg (by simp)]
    cases hd : hasKey "description" m with
    | true =>
      rw [if_pos rfl]
      rw [jget_descmap]
      obtain ⟨v, hv⟩ := (hasKey_true_iff ..).mp hd
      rw [hv]
      cases v <;> rfl
    | false =>
      rw [if_neg (by simp)]
      rw [jget_descmap]
      rw [jget_append]
      rw [if_neg (by simp [hd])]
      rw [(hasKey_false_iff ..).mp hd]
      rfl

theorem mem_appendValidation_origin (cs : List String) (m : JObj)
    (kv : String × Json) (h : kv ∈ appendValidation cs m) :
    kv ∈ m ∨ ∃ s, kv.2 = Json.str s := by
  unfold appendValidation at h
  cases cs with
  | nil => simp at h; exact Or.inl h
  | cons c rest =>
    simp only [List.isEmpty_cons, if_false, Bool.false_eq_true] at h
    set suffix := validationSuffix (c :: rest) with hsuffix
    set m1 := if hasKey "description" m then m else m ++ [("description", Json.str "")]
      with hm1
    obtain ⟨kv0, hkv0, heq⟩ := List.mem_map.mp h
    have hkv0m : kv0 ∈ m ∨ ∃ s, kv0.2 = Json.str s := by
      by_cases hd : hasKey "description" m
      · simp [hm1, hd] at hkv0
        exact Or.inl hkv0
      · simp [hm1, hd] at hkv0
        rcases hkv0 with h1 | h1
        · exact Or.inl h1
        · exact Or.inr ⟨"", by simp [h1]⟩
    by_cases h1 : kv0.1 = "description"
    · rw [if_pos h1] at heq
      cases hv0 : kv0.2 with
      | str s =>
        rw [hv0] at heq
        exact Or.inr ⟨s ++ suffix, by simp [← heq]⟩
      | null =>
        rw [hv0] at heq
        rcases hkv0m with h2 | h2
        · exact Or.inl (by simpa [← heq, ← hv0, Prod.ext_iff] using h2)
        · exact absurd (hv0 ▸ h2) (by simp)
      | bool b =>
        rw [hv0] at heq
        rcases hkv0m with h2 | h2
        · exact Or.inl (by simpa [← heq, ← hv0, Prod.ext_iff] using h2)
        · exact absurd (hv0 ▸ h2) (by simp)
      | num n =>
        rw [hv0] at heq
        rcases hkv0m with h2 | h2
        · exact Or.inl (by simpa [← heq, ← hv0, Prod.ext_iff] using h2)
        · exact absurd (hv0 ▸ h2) (by simp)
      | arr l =>
        rw [hv0] at heq
        rcases hkv0m with h2 | h2
        · exact Or.inl (by simpa [← heq, ← hv0, Prod.ext_iff] using h2)
        · exact absurd (hv0 ▸ h2) (by simp)
      | obj o =>
        rw [hv0] at heq
        rcases hkv0m with h2 | h2
        · exact Or.inl (by simpa [← heq, ← hv0, Prod.ext_iff] using h2)
        · exact absurd (hv0 ▸ h2) (by simp)
    · rw [if_neg h1] at heq
      subst heq
      exact hkv0m

/-! ### Lemmas about `removeKeys` -/

theorem removeKeys_cons (k : String) (ks : List String) (m : JObj) :
    removeKeys (k :: ks) m = removeKeys ks (jremove k m) := rfl

theorem mem_removeKeys (ks : List String) (m : JObj) (kv : String × Json) :
    kv ∈ removeKeys ks m ↔ kv ∈ m ∧ kv.1 ∉ ks := by
  induction ks generalizing m with
  | nil => simp [removeKeys]
  | cons k rest ih =>
    rw [removeKeys_cons, ih]
    rw [mem_jremove]
    constructor
    · rintro ⟨⟨h1, h2⟩, h3⟩
      exact ⟨h1, by simp [h2, h3]⟩
    · rintro ⟨h1, h2⟩
      simp only [List.mem_cons, not_or] at h2
      exact ⟨⟨h1, h2.1⟩, h2.2⟩

theorem jget_removeKeys_not_mem (ks : List String) (m : JObj) (k : String)
    (h : k ∉ ks) : jget k (removeKeys ks m) = jget k m := by
  induction ks generalizing m with
  | nil => rfl
  | cons k2 rest ih =>
    simp only [List.mem_cons, not_or] at h
    rw [removeKeys_cons, ih _ h.2, jget_jremove_ne _ _ _ h.1]

theorem hasKey_removeKeys_mem (ks : List String) (m : JObj) (k : String)
    (h : k ∈ ks) : hasKey k (removeKeys ks m) = false := by
  cases h2 : hasKey k (removeKeys ks m) with
  | false => rfl
  | true =>
    obtain ⟨v, hv⟩ := (hasKey_true_iff ..).mp h2
    have := (mem_removeKeys ks m (k, v)).mp (exists_mem_of_jget _ _ _ hv)
    exact absurd h this.2

theorem removeKeys_eq_self (ks : List String) (m : JObj)
    (h : ∀ k ∈ ks, hasKey k m = false) : removeKeys ks m = m := by
  induction ks with
  | nil => rfl
  | cons k rest ih =>
    rw [removeKeys_cons, jremove_eq_self k m (h k (List.mem_cons_self _ _))]
    exact ih (fun k2 hk2 => h k2 (List.mem_cons_of_mem _ hk2))

theorem list_map_eq_self {α : Type} (l : List α) (f : α → α)
    (h : ∀ a ∈ l, f a = a) : l.map f = l := by
  induction l with
  | nil => rfl
  | cons x rest ih =>
    rw [List.map_cons, h x (List.mem_cons_self _ _),
      ih (fun a ha => h a (List.mem_cons_of_mem _ ha))]

/-! ### Lemmas about `normalizeTypeField` -/

theorem jget_map_entryval (g : String → Json → Json) (m : JObj) (k : String) :
    jget k (m.map (fun kv => (kv.1, g kv.1 kv.2))) = (jget k m).map (g k) := by
  induction m with
  | nil => rfl
  | cons kv rest ih =>
    obtain ⟨k1, v1⟩ := kv
    by_cases h : k1 = k
    · subst h
      simp [jget_cons]
    · simp [jget_cons, h, ih]

theorem normalizeTypeField_eq_map (m : JObj) :
    normalizeTypeField m =
      m.map (fun kv => (kv.1, if kv.1 = "type" then lowerTypeValue kv.2 else kv.2)) := by
  unfold normalizeTypeField
  apply List.map_congr_left
  intro kv _
  by_cases h : kv.1 = "type"
  · simp [h]
  · simp [h]

theorem jget_normalizeTypeField (m : JObj) (k : String) :
    jget k (normalizeTypeField m) =
      if k = "type" then (jget k m).map lowerTypeValue else jget k m := by
  rw [normalizeTypeField_eq_map]
  have h2 := jget_map_entryval (fun key v => if key = "type" then lowerTypeValue v else v) m k
  simp only [] at h2
  rw [h2]
  by_cases h : k = "type"
  · simp [h]
  · simp [h]

theorem hasKey_normalizeTypeField (m : JObj) (k : String) :
    hasKey k (normalizeTypeField m) = hasKey k m := by
  rw [hasKey, jget_normalizeTypeField]
  by_cases h : k = "type" <;> simp [h, hasKey]

theorem mem_normalizeTypeField (m : JObj) (kv : String × Json)
    (h : kv ∈ normalizeTypeField m) :
    (kv.1 ≠ "type" ∧ kv ∈ m) ∨
      (kv.1 = "type" ∧ ∃ v0, (kv.1, v0) ∈ m ∧ kv.2 = lowerTypeValue v0) := by
  rw [normalizeTypeField_eq_map] at h
  obtain ⟨kv0, hkv0, heq⟩ := List.mem_map.mp h
  have hfst : kv.1 = kv0.1 := by rw [← heq]
  by_cases h1 : kv0.1 = "type"
  · right
    refine ⟨hfst ▸ h1, kv0.2, ?_, ?_⟩
    · rw [hfst, Prod.mk.eta]
      exact hkv0
    · rw [← heq]
      simp [h1]
  · left
    refine ⟨hfst ▸ h1, ?_⟩
    rw [← heq]
    simp only [if_neg h1]
    rw [Prod.mk.eta]
    exact hkv0

theorem normalizeTypeField_eq_self (m : JObj)
    (h : ∀ kv ∈ m, kv.1 = "type" → lowerTypeValue kv.2 = kv.2) :
    normalizeTypeField m = m := by
  unfold normalizeTypeField
  apply list_map_eq_self
  intro kv hkv
  by_cases h1 : kv.1 = "type"
  · rw [if_pos h1, h kv hkv h1]
  · rw [if_neg h1]

/-! ### Lemmas about `mergeAbsent` -/

theorem mergeAbsent_cons (m : JObj) (kv : String × Json) (dm : JObj) :
    mergeAbsent m (kv :: dm) = mergeAbsent (entryOrInsert kv.1 kv.2 m) dm := rfl

theorem jget_mergeAbsent (m dm : JObj) (k : String) :
    jget k (mergeAbsent m dm) = (jget k m).or (jget k dm) := by
  induction dm generalizing m with
  | nil => simp [mergeAbsent, removeKeys, jget_nil]
  | cons kv dmrest ih =>
    obtain ⟨k1, v1⟩ := kv
    rw [mergeAbsent_cons, ih]
    unfold entryOrInsert
    by_cases h1 : hasKey k1 m
    · rw [if_pos h1]
      by_cases h2 : k1 = k
      · subst h2
        obtain ⟨v, hv⟩ := (hasKey_true_iff ..).mp h1
        simp [hv, jget_cons]
      · simp [jget_cons, h2]
    · rw [if_neg h1]
      rw [jget_append]
      by_cases h2 : k1 = k
      · subst h2
        have h3 : jget k1 m = none := (hasKey_false_iff ..).mp (by simpa using h1)
        simp [h3, jget_cons, jget_nil, h1]
      · by_cases h3 : hasKey k m
        · simp [h3, jget_cons, h2]
        · have h4 : jget k m = none := (hasKey_false_iff ..).mp (by simpa using h3)
          simp [h3, h4, jget_cons, h2, jget_nil]

theorem jget_mergeAbsent_present (m dm : JObj) (k : String) (h : hasKey k m = true) :
    jget k (mergeAbsent m dm) = jget k m := by
  obtain ⟨v, hv⟩ := (hasKey_true_iff ..).mp h
  rw [jget_mergeAbsent, hv]
  rfl

theorem jget_mergeAbsent_absent (m dm : JObj) (k : String) (h : hasKey k m = false) :
    jget k (mergeAbsent m dm) = jget k dm := by
  rw [jget_mergeAbsent, (hasKey_false_iff ..).mp h]
  rfl

/-! ### Evaluation and inversion lemmas for the cleaner -/

theorem cleanRec_null (fuel : Nat) :
    clean_json_schema_recursive (fuel+1) Json.null = some Json.null := rfl

theorem cleanRec_bool (fuel : Nat) (b : Bool) :
    clean_json_schema_recursive (fuel+1) (Json.bool b) = some (Json.bool b) := rfl

theorem cleanRec_num (fuel : Nat) (n : Int) :
    clean_json_schema_recursive (fuel+1) (Json.num n) = some (Json.num n) := rfl

theorem cleanRec_str (fuel : Nat) (s : String) :
    clean_json_schema_recursive (fuel+1) (Json.str s) = some (Json.str s) := rfl

theorem cleanRec_arr (fuel : Nat) (l : List Json) :
    clean_json_schema_recursive (fuel+1) (Json.arr l) =
      (optMapItems (fun v => clean_json_schema_recursive fuel v) l).map Json.arr := rfl

theorem cleanRec_obj (fuel : Nat) (m : JObj) :
    clean_json_schema_recursive (fuel+1) (Json.obj m) =
      (optMapEntries (fun v => clean_json_schema_recursive fuel v)
        (normalizeTypeField
          (removeKeys other_fields_to_remove
            (appendValidation (collectConstraints validation_fields m).1
              (collectConstraints validation_fields m).2)))).map Json.obj := rfl

theorem cleanRec_out_str (fuel : Nat) (v : Json) (s : String)
    (h : clean_json_schema_recursive fuel v = some (Json.str s)) : v = Json.str s := by
  cases fuel with
  | zero => simp [clean_json_schema_recursive] at h
  | succ fuel =>
    cases v with
    | null => simp [cleanRec_null] at h
    | bool b => simp [cleanRec_bool] at h
    | num n => simp [cleanRec_num] at h
    | str s2 =>
      rw [cleanRec_str] at h
      injection h
    | arr l =>
      rw [cleanRec_arr] at h
      obtain ⟨l2, _h1, h2⟩ := Option.map_eq_some'.mp h
      exact absurd h2 (by simp)
    | obj m =>
      rw [cleanRec_obj] at h
      obtain ⟨m2, _h1, h2⟩ := Option.map_eq_some'.mp h
      exact absurd h2 (by simp)

theorem lowerIfString_of_cleanRec_lower (fuel : Nat) (x0 y : Json)
    (h : clean_json_schema_recursive fuel (lowerIfString x0) = some y) :
    lowerIfString y = y := by
  cases x0 with
  | str s =>
    have h2 : lowerIfString (Json.str s) = Json.str (strToLower s) := rfl
    rw [h2] at h
    cases fuel with
    | zero => simp [clean_json_schema_recursive] at h
    | succ fuel =>
      rw [cleanRec_str] at h
      injection h with h
      rw [← h]
      show Json.str (strToLower (strToLower s)) = Json.str (strToLower s)
      rw [strToLower_idem]
  | null =>
    cases fuel with
    | zero => simp [clean_json_schema_recursive] at h
    | succ fuel =>
      rw [show lowerIfString Json.null = Json.null from rfl, cleanRec_null] at h
      injection h with h
      rw [← h]
      rfl
  | bool b =>
    cases fuel with
    | zero => simp [clean_json_schema_recursive] at h
    | succ fuel =>
      rw [show lowerIfString (Json.bool b) = Json.bool b from rfl, cleanRec_bool] at h
      injection h with h
      rw [← h]
      rfl
  | num n =>
    cases fuel with
    | zero => simp [clean_json_schema_recursive] at h
    | succ fuel =>
      rw [show lowerIfString (Json.num n) = Json.num n from rfl, cleanRec_num] at h
      injection h with h
      rw [← h]
      rfl
  | arr l =>
    cases fuel with
    | zero => simp [clean_json_schema_recursive] at h
    | succ fuel =>
      rw [show lowerIfString (Json.arr l) = Json.arr l from rfl, cleanRec_arr] at h
      obtain ⟨l2, _h1, h2⟩ := Option.map_eq_some'.mp h
      rw [← h2]
      rfl
  | obj m =>
    cases fuel with
    | zero => simp [clean_json_schema_recursive] at h
    | succ fuel =>
      rw [show lowerIfString (Json.obj m) = Json.obj m from rfl, cleanRec_obj] at h
      obtain ⟨m2, _h1, h2⟩ := Option.map_eq_some'.mp h
      rw [← h2]
      rfl

theorem lowerTypeValue_of_cleanRec_lower (fuel : Nat) (v0 w : Json)
    (h : clean_json_schema_recursive fuel (lowerTypeValue v0) = some w) :
    lowerTypeValue w = w := by
  cases v0 with
  | str s =>
    have h2 : lowerTypeValue (Json.str s) = Json.str (strToLower s) := rfl
    rw [h2] at h
    cases fuel with
    | zero => simp [clean_json_schema_recursive] at h
    | succ fuel =>
      rw [cleanRec_str] at h
      injection h with h
      rw [← h]
      show Json.str (strToLower (strToLower s)) = Json.str (strToLower s)
      rw [strToLower_idem]
  | arr items =>
    have h2 : lowerTypeValue (Json.arr items) = Json.arr (items.map lowerIfString) := rfl
    rw [h2] at h
    cases fuel with
    | zero => simp [clean_json_schema_recursive] at h
    | succ fuel =>
      rw [cleanRec_arr] at h
      obtain ⟨items2, h1, hw⟩ := Option.map_eq_some'.mp h
      rw [← hw]
      show Json.arr (items2.map lowerIfString) = Json.arr items2
      congr 1
      apply list_map_eq_self
      intro y hy
      obtain ⟨x, hx, hfx⟩ := optMapItems_mem _ _ _ h1 y hy
      obtain ⟨x0, _hx0, hxeq⟩ := List.mem_map.mp hx
      rw [← hxeq] at hfx
      exact lowerIfString_of_cleanRec_lower fuel x0 y hfx
  | null =>
    cases fuel with
    | zero => simp [clean_json_schema_recursive] at h
    | succ fuel =>
      rw [show lowerTypeValue Json.null = Json.null from rfl, cleanRec_null] at h
      injection h with h
      rw [← h]
      rfl
  | bool b =>
    cases fuel with
    | zero => simp [clean_json_schema_recursive] at h
    | succ fuel =>
      rw [show lowerTypeValue (Json.bool b) = Json.bool b from rfl, cleanRec_bool] at h
      injection h with h
      rw [← h]
      rfl
  | num n =>
    cases fuel with
    | zero => simp [clean_json_schema_recursive] at h
    | succ fuel =>
      rw [show lowerTypeValue (Json.num n) = Json.num n from rfl, cleanRec_num] at h
      injection h with h
      rw [← h]
      rfl
  | obj m =>
    cases fuel with
    | zero => simp [clean_json_schema_recursive] at h
    | succ fuel =>
      rw [show lowerTypeValue (Json.obj m) = Json.obj m from rfl, cleanRec_obj] at h
      obtain ⟨m2, _h1, hw⟩ := Option.map_eq_some'.mp h
      rw [← hw]
      rfl

theorem hasKey_removeKeys_not_mem (ks : List String) (m : JObj) (k : String)
    (h : k ∉ ks) : hasKey k (removeKeys ks m) = hasKey k m := by
  rw [hasKey, jget_removeKeys_not_mem ks m k h, hasKey]

/-- The cleaning pass is a closure operator: its output is one of its fixed
points (at the same fuel). -/
theorem cleanRec_fix (fuel : Nat) (v w : Json)
    (h : clean_json_schema_recursive fuel v = some w) :
    clean_json_schema_recursive fuel w = some w := by
  induction fuel generalizing v w with
  | zero => simp [clean_json_schema_recursive] at h
  | succ fuel ih =>
    cases v with
    | null =>
      rw [cleanRec_null] at h
      injection h with h
      rw [← h]
      exact cleanRec_null fuel
    | bool b =>
      rw [cleanRec_bool] at h
      injection h with h
      rw [← h]
      exact cleanRec_bool fuel b
    | num n =>
      rw [cleanRec_num] at h
      injection h with h
      rw [← h]
      exact cleanRec_num fuel n
    | str s =>
      rw [cleanRec_str] at h
      injection h with h
      rw [← h]
      exact cleanRec_str fuel s
    | arr l =>
      rw [cleanRec_arr] at h
      obtain ⟨l2, h1, hw⟩ := Option.map_eq_some'.mp h
      rw [← hw, cleanRec_arr]
      rw [optMapItems_fix]
      · rfl
      · intro y hy
        obtain ⟨x, _hx, hfx⟩ := optMapItems_mem _ _ _ h1 y hy
        exact ih x y hfx
    | obj m =>
      rw [cleanRec_obj] at h
      obtain ⟨m5, h1, hw⟩ := Option.map_eq_some'.mp h
      rw [← hw, cleanRec_obj]
      have hkey5 : ∀ k, hasKey k m5 =
          hasKey k (normalizeTypeField (removeKeys other_fields_to_remove
            (appendValidation (collectConstraints validation_fields m).1
              (collectConstraints validation_fields m).2))) :=
        fun k => optMapEntries_hasKey _ _ _ h1 k
      have habs : ∀ fl ∈ validation_fields, hasKey fl.1 m5 = false := by
        intro fl hfl
        have hside : fl.1 ≠ "description" ∧ fl.1 ∉ other_fields_to_remove := by
          revert hfl
          revert fl
          decide
        rw [hkey5 fl.1, hasKey_normalizeTypeField,
          hasKey_removeKeys_not_mem _ _ _ hside.2,
          hasKey_appendValidation_ne _ _ _ hside.1]
        exact hasKey_collectConstraints_of_mem validation_fields m fl.1 fl.2
          (by rw [Prod.mk.eta]; exact hfl)
      have h7 : ∀ k ∈ other_fields_to_remove, hasKey k m5 = false := by
        intro k hk
        rw [hkey5 k, hasKey_normalizeTypeField]
        exact hasKey_removeKeys_mem _ _ _ hk
      have hnorm : ∀ kv ∈ m5, kv.1 = "type" → lowerTypeValue kv.2 = kv.2 := by
        intro kv hkv htype
        obtain ⟨v4, hv4mem, hv4⟩ := optMapEntries_mem _ _ _ h1 kv hkv
        rcases mem_normalizeTypeField _ _ hv4mem with ⟨hne, _⟩ | ⟨_, v3, _hv3mem, hv4eq⟩
        · exact absurd htype hne
        · have hv4eq2 : v4 = lowerTypeValue v3 := hv4eq
          rw [hv4eq2] at hv4
          exact lowerTypeValue_of_cleanRec_lower fuel v3 kv.2 hv4
      have hfix : ∀ kv ∈ m5, (fun v => clean_json_schema_recursive fuel v) kv.2 = some kv.2 := by
        intro kv hkv
        obtain ⟨v4, _hv4mem, hv4⟩ := optMapEntries_mem _ _ _ h1 kv hkv
        exact ih v4 kv.2 hv4
      have e1 : collectConstraints validation_fields m5 = ([], m5) :=
        collectConstraints_of_absent validation_fields m5 habs
      have e2 : appendValidation (collectConstraints validation_fields m5).1
          (collectConstraints validation_fields m5).2 = m5 := by
        rw [e1]
        exact appendValidation_nil m5
      have e3 : removeKeys other_fields_to_remove
          (appendValidation (collectConstraints validation_fields m5).1
            (collectConstraints validation_fields m5).2) = m5 := by
        rw [e2]
        exact removeKeys_eq_self _ _ h7
      have e4 : normalizeTypeField (removeKeys other_fields_to_remove
          (appendValidation (collectConstraints validation_fields m5).1
            (collectConstraints validation_fields m5).2)) = m5 := by
        rw [e3]
        exact normalizeTypeField_eq_self m5 hnorm
      rw [e4, optMapEntries_fix _ _ hfix]
      rfl

/-- More fuel never changes a successful cleaning result. -/
theorem cleanRec_mono (fuel : Nat) :
    ∀ v w, clean_json_schema_recursive fuel v = some w →
      clean_json_schema_recursive (fuel+1) v = some w := by
  induction fuel with
  | zero =>
    intro v w h
    simp [clean_json_schema_recursive] at h
  | succ fuel ih =>
    intro v w h
    cases v with
    | null => exact h
    | bool b => exact h
    | num n => exact h
    | str s => exact h
    | arr l =>
      rw [cleanRec_arr] at h
      obtain ⟨l2, h1, hw⟩ := Option.map_eq_some'.mp h
      rw [← hw, cleanRec_arr]
      rw [optMapItems_mono_some _ _ (fun v w hvw => ih v w hvw) _ _ h1]
      rfl
    | obj m =>
      rw [cleanRec_obj] at h
      obtain ⟨m5, h1, hw⟩ := Option.map_eq_some'.mp h
      rw [← hw, cleanRec_obj]
      rw [optMapEntries_mono_some _ _ (fun v w hvw => ih v w hvw) _ _ h1]
      rfl

theorem hasKey_collectConstraints_not_mem (fs : List (String × String)) (m : JObj)
    (k : String) (hnot : ∀ l, (k, l) ∉ fs) :
    hasKey k (collectConstraints fs m).2 = hasKey k m := by
  rw [hasKey, jget_collectConstraints_not_mem fs m k hnot, hasKey]

/-! ### Unfolding and inversion lemmas for `flatten_refs` -/

theorem flattenChildren_eq (f : JObj → Option JObj) (m : JObj) :
    flattenChildren f m = optMapEntries (fun v =>
      match v with
      | Json.obj childMap => (f childMap).map Json.obj
      | Json.arr items =>
          (optMapItems (fun item =>
            match item with
            | Json.obj itemMap => (f itemMap).map Json.obj
            | other => some other) items).map Json.arr
      | _other => some v) m := rfl

theorem flatten_refs_succ_cases (defs : JObj) (fuel : Nat) (m m' : JObj)
    (h : flatten_refs defs (fuel+1) m = some m') :
    ∃ m2, flattenChildren (fun cm => flatten_refs defs fuel cm) m2 = some m' ∧
      ((m2 = m ∧ jget "$ref" m = none) ∨
       m2 = jremove "$ref" m ∨
       (∃ dm, flatten_refs defs fuel (mergeAbsent (jremove "$ref" m) dm) = some m2)) := by
  rw [show flatten_refs defs (fuel+1) m =
      (match jget "$ref" m with
        | some (Json.str refPath) =>
            match jget (lastSegment refPath) defs with
            | some (Json.obj defMap) =>
                flatten_refs defs fuel (mergeAbsent (jremove "$ref" m) defMap)
            | _ => some (jremove "$ref" m)
        | some _ => some (jremove "$ref" m)
        | none => some m).bind
        (fun m2 => flattenChildren (fun cm => flatten_refs defs fuel cm) m2) from rfl] at h
  obtain ⟨m2, hm2, hch⟩ := Option.bind_eq_some.mp h
  refine ⟨m2, hch, ?_⟩
  split at hm2
  · split at hm2
    · exact Or.inr (Or.inr ⟨_, hm2⟩)
    · injection hm2 with hm2
      exact Or.inr (Or.inl hm2.symm)
  · injection hm2 with hm2
    exact Or.inr (Or.inl hm2.symm)
  · next heq =>
    injection hm2 with hm2
    exact Or.inl ⟨hm2.symm, heq⟩

theorem lowerTypeValue_out_obj (v : Json) (o : JObj) (h : lowerTypeValue v = Json.obj o) :
    v = Json.obj o := by
  cases v <;> (simp [lowerTypeValue] at h; try simp [h])

theorem lowerTypeValue_out_arr (v : Json) (l : List Json)
    (h : lowerTypeValue v = Json.arr l) :
    ∃ l0, v = Json.arr l0 ∧ l = l0.map lowerIfString := by
  cases v <;> simp [lowerTypeValue] at h
  case arr l0 => exact ⟨l0, rfl, h.symm⟩

theorem lowerIfString_out_obj (v : Json) (o : JObj) (h : lowerIfString v = Json.obj o) :
    v = Json.obj o := by
  cases v <;> (simp [lowerIfString] at h; try simp [h])

theorem cleanRec_out_obj (fuel : Nat) (v : Json) (o : JObj)
    (h : clean_json_schema_recursive fuel v = some (Json.obj o)) :
    ∃ o0, v = Json.obj o0 := by
  cases fuel with
  | zero => simp [clean_json_schema_recursive] at h
  | succ fuel =>
    cases v with
    | obj m => exact ⟨m, rfl⟩
    | null => rw [cleanRec_null] at h; injection h with h; simp at h
    | bool b => rw [cleanRec_bool] at h; injection h with h; simp at h
    | num n => rw [cleanRec_num] at h; injection h with h; simp at h
    | str s => rw [cleanRec_str] at h; injection h with h; simp at h
    | arr l =>
      rw [cleanRec_arr] at h
      obtain ⟨l2, _h1, h2⟩ := Option.map_eq_some'.mp h
      simp at h2

theorem cleanRec_out_arr (fuel : Nat) (v : Json) (l : List Json)
    (h : clean_json_schema_recursive fuel v = some (Json.arr l)) :
    ∃ fuel0 l0, fuel = fuel0 + 1 ∧ v = Json.arr l0 ∧
      optMapItems (fun x => clean_json_schema_recursive fuel0 x) l0 = some l := by
  cases fuel with
  | zero => simp [clean_json_schema_recursive] at h
  | succ fuel =>
    cases v with
    | arr l0 =>
      rw [cleanRec_arr] at h
      obtain ⟨l2, h1, h2⟩ := Option.map_eq_some'.mp h
      injection h2 with h2
      subst h2
      exact ⟨fuel, l0, rfl, rfl, h1⟩
    | null => rw [cleanRec_null] at h; injection h with h; simp at h
    | bool b => rw [cleanRec_bool] at h; injection h with h; simp at h
    | num n => rw [cleanRec_num] at h; injection h with h; simp at h
    | str s => rw [cleanRec_str] at h; injection h with h; simp at h
    | obj m =>
      rw [cleanRec_obj] at h
      obtain ⟨m2, _h1, h2⟩ := Option.map_eq_some'.mp h
      simp at h2

/-- Where a key/value pair of the processed own-keys map comes from: either
its value is a string (all description rewrites produce strings), or the key
carried some value in the original map, unchanged or `type`-lowercased. -/
theorem mem_ownKeys_origin (m : JObj) (kv : String × Json)
    (h : kv ∈ normalizeTypeField (removeKeys other_fields_to_remove
      (appendValidation (collectConstraints validation_fields m).1
        (collectConstraints validation_fields m).2))) :
    (∃ s, kv.2 = Json.str s) ∨
      ∃ v0, (kv.1, v0) ∈ m ∧ (kv.2 = v0 ∨ kv.2 = lowerTypeValue v0) := by
  rcases mem_normalizeTypeField _ _ h with ⟨_hne, h3⟩ | ⟨_htype, v3, h3, hkv⟩
  · have h2 := (mem_removeKeys _ _ _).mp h3
    rcases mem_appendValidation_origin _ _ _ h2.1 with h1 | h1
    · have h0 := mem_collectConstraints_snd _ _ _ h1
      exact Or.inr ⟨kv.2, by rwa [Prod.mk.eta], Or.inl rfl⟩
    · exact Or.inl h1
  · have h2 := (mem_removeKeys _ _ _).mp h3
    rcases mem_appendValidation_origin _ _ _ h2.1 with h1 | h1
    · have h0 := mem_collectConstraints_snd _ _ _ h1
      exact Or.inr ⟨v3, h0, Or.inr hkv⟩
    · obtain ⟨s, hs⟩ := h1
      have hv3 : v3 = Json.str s := hs
      rw [hv3] at hkv
      exact Or.inl ⟨strToLower s, by rw [hkv]; rfl⟩

/-- No object node that the flattener's traversal visits still carries a
`$ref` key after `flatten_refs` succeeds. -/
theorem flatten_refs_noVisitedRef (defs : JObj) (fuel : Nat) :
    ∀ m m', flatten_refs defs fuel m = some m' →
      ∀ m'', FlatReach (Json.obj m') (Json.obj m'') → hasKey "$ref" m'' = false := by
  induction fuel with
  | zero =>
    intro m m' h
    simp [flatten_refs] at h
  | succ fuel ih =>
    intro m m' h m'' hreach
    obtain ⟨m2, hch, hcase⟩ := flatten_refs_succ_cases defs fuel m m' h
    rw [flattenChildren_eq] at hch
    have htop2 : hasKey "$ref" m2 = false := by
      rcases hcase with ⟨rfl, hnone⟩ | rfl | ⟨dm, hmerge⟩
      · rw [hasKey_false_iff]
        exact hnone
      · exact hasKey_jremove_self _ _
      · exact ih _ _ hmerge m2 (FlatReach.refl m2)
    cases hreach with
    | refl =>
      rw [optMapEntries_hasKey _ _ _ hch]
      exact htop2
    | child hmem hsub =>
      obtain ⟨v2, _hv2mem, hv2⟩ := optMapEntries_mem _ _ _ hch _ hmem
      cases v2 with
      | obj cm0 =>
        simp only [Option.map_eq_some'] at hv2
        obtain ⟨cm1, hcm1, hcm2⟩ := hv2
        injection hcm2 with hcm2
        subst hcm2
        exact ih _ _ hcm1 m'' hsub
      | arr items0 =>
        simp only [Option.map_eq_some'] at hv2
        obtain ⟨_, _, hbad⟩ := hv2
        simp at hbad
      | null => simp at hv2
      | bool b => simp at hv2
      | num n => simp at hv2
      | str s => simp at hv2
    | arrElem hmem helem hsub =>
      obtain ⟨v2, _hv2mem, hv2⟩ := optMapEntries_mem _ _ _ hch _ hmem
      cases v2 with
      | arr items0 =>
        simp only [Option.map_eq_some'] at hv2
        obtain ⟨items1, hitems1, hitems2⟩ := hv2
        injection hitems2 with hitems2
        subst hitems2
        obtain ⟨it, _hit, hfit⟩ := optMapItems_mem _ _ _ hitems1 _ helem
        cases it with
        | obj im0 =>
          simp only [Option.map_eq_some'] at hfit
          obtain ⟨im1, him1, him2⟩ := hfit
          injection him2 with him2
          subst him2
          exact ih _ _ him1 m'' hsub
        | arr l0 => simp at hfit
        | null => simp at hfit
        | bool b => simp at hfit
        | num n => simp at hfit
        | str s => simp at hfit
      | obj cm0 =>
        simp only [Option.map_eq_some'] at hv2
        obtain ⟨_, _, hbad⟩ := hv2
        simp at hbad
      | null => simp at hv2
      | bool b => simp at hv2
      | num n => simp at hv2
      | str s => simp at hv2

/-- The cleaning pass never introduces a `$ref` key: it preserves the
"no `$ref` at flattener-visited nodes" invariant. -/
theorem cleanRec_preserves_noVisitedRef (fuel : Nat) :
    ∀ v w, clean_json_schema_recursive fuel v = some w →
      (∀ m0, FlatReach v (Json.obj m0) → hasKey "$ref" m0 = false) →
      ∀ m'', FlatReach w (Json.obj m'') → hasKey "$ref" m'' = false := by
  induction fuel with
  | zero =>
    intro v w h
    simp [clean_json_schema_recursive] at h
  | succ fuel ih =>
    intro v w h hv m'' hreach
    cases v with
    | null =>
      rw [cleanRec_null] at h
      injection h with h
      rw [← h] at hreach
      cases hreach
    | bool b =>
      rw [cleanRec_bool] at h
      injection h with h
      rw [← h] at hreach
      cases hreach
    | num n =>
      rw [cleanRec_num] at h
      injection h with h
      rw [← h] at hreach
      cases hreach
    | str s =>
      rw [cleanRec_str] at h
      injection h with h
      rw [← h] at hreach
      cases hreach
    | arr l =>
      rw [cleanRec_arr] at h
      obtain ⟨l2, _h1, hw⟩ := Option.map_eq_some'.mp h
      rw [← hw] at hreach
      cases hreach
    | obj m =>
      rw [cleanRec_obj] at h
      obtain ⟨m5, h1, hw⟩ := Option.map_eq_some'.mp h
      rw [← hw] at hreach
      cases hreach with
      | refl =>
        have hnotfield : ∀ l, ("$ref", l) ∉ validation_fields := by
          intro l hl
          have h2 : "$ref" ∈ validation_fields.map Prod.fst :=
            List.mem_map_of_mem Prod.fst hl
          exact absurd h2 (by decide)
        rw [optMapEntries_hasKey _ _ _ h1, hasKey_normalizeTypeField,
          hasKey_removeKeys_not_mem _ _ _ (by decide),
          hasKey_appendValidation_ne _ _ _ (by decide),
          hasKey_collectConstraints_not_mem _ _ _ hnotfield]
        exact hv m (FlatReach.refl m)
      | child hmem hsub =>
        obtain ⟨v4, hv4mem, hv4⟩ := optMapEntries_mem _ _ _ h1 _ hmem
        obtain ⟨cm4, hcm4⟩ := cleanRec_out_obj _ _ _ hv4
        rw [hcm4] at hv4 hv4mem
        rcases mem_ownKeys_origin m _ hv4mem with ⟨s, hs⟩ | ⟨v0, hv0mem, hv0⟩
        · exact absurd hs (by simp)
        · have hv0obj : v0 = Json.obj cm4 := by
            rcases hv0 with h2 | h2
            · exact h2.symm
            · exact lowerTypeValue_out_obj v0 cm4 h2.symm
          rw [hv0obj] at hv0mem
          have hinv : ∀ m0, FlatReach (Json.obj cm4) (Json.obj m0) →
              hasKey "$ref" m0 = false :=
            fun m0 hr => hv m0 (FlatReach.child hv0mem hr)
          exact ih _ _ hv4 hinv m'' hsub
      | arrElem hmem helem hsub =>
        obtain ⟨v4, hv4mem, hv4⟩ := optMapEntries_mem _ _ _ h1 _ hmem
        obtain ⟨fuel0, items4, hfuel0, hitems4, hopt⟩ := cleanRec_out_arr _ _ _ hv4
        rw [hitems4] at hv4mem
        obtain ⟨it4, hit4, hfit4⟩ := optMapItems_mem _ _ _ hopt _ helem
        obtain ⟨im4, him4⟩ := cleanRec_out_obj _ _ _ hfit4
        rw [him4] at hfit4 hit4
        have hfit5 := cleanRec_mono fuel0 _ _ hfit4
        rw [← hfuel0] at hfit5
        rcases mem_ownKeys_origin m _ hv4mem with ⟨s, hs⟩ | ⟨v0, hv0mem, hv0⟩
        · exact absurd hs (by simp)
        · rcases hv0 with h2 | h2
          · have h2s : v0 = Json.arr items4 := h2.symm
            rw [h2s] at hv0mem
            have hinv : ∀ m0, FlatReach (Json.obj im4) (Json.obj m0) →
                hasKey "$ref" m0 = false :=
              fun m0 hr => hv m0 (FlatReach.arrElem hv0mem hit4 hr)
            exact ih _ _ hfit5 hinv m'' hsub
          · obtain ⟨items3, hv03, hmap⟩ := lowerTypeValue_out_arr v0 items4 h2.symm
            rw [hmap] at hit4
            obtain ⟨it3, hit3, hlow⟩ := List.mem_map.mp hit4
            have hit3obj : it3 = Json.obj im4 := lowerIfString_out_obj it3 im4 hlow
            rw [hit3obj] at hit3
            rw [hv03] at hv0mem
            have hinv : ∀ m0, FlatReach (Json.obj im4) (Json.obj m0) →
                hasKey "$ref" m0 = false :=
              fun m0 hr => hv m0 (FlatReach.arrElem hv0mem hit3 hr)
            exact ih _ _ hfit5 hinv m'' hsub


theorem vf_names_not_other :
    ∀ f ∈ validation_fields.map Prod.fst, f ∉ other_fields_to_remove := by decide

theorem vf_names_ne_desc :
    ∀ f ∈ validation_fields.map Prod.fst, f ≠ "description" := by decide

/-- After the cleaning pass, no node anywhere in the output carries any of
the removed keys. -/
theorem cleanRec_removed_keys (fuel : Nat) :
    ∀ v w, clean_json_schema_recursive fuel v = some w →
      ∀ m'', ContainsNode w (Json.obj m'') →
        ∀ f ∈ removed_key_names, hasKey f m'' = false := by
  induction fuel with
  | zero =>
    intro v w h
    simp [clean_json_schema_recursive] at h
  | succ fuel ih =>
    intro v w h m'' hcont f hf
    cases v with
    | null =>
      rw [cleanRec_null] at h
      injection h with h
      rw [← h] at hcont
      cases hcont
    | bool b =>
      rw [cleanRec_bool] at h
      injection h with h
      rw [← h] at hcont
      cases hcont
    | num n =>
      rw [cleanRec_num] at h
      injection h with h
      rw [← h] at hcont
      cases hcont
    | str s =>
      rw [cleanRec_str] at h
      injection h with h
      rw [← h] at hcont
      cases hcont
    | arr l =>
      rw [cleanRec_arr] at h
      obtain ⟨l2, h1, hw⟩ := Option.map_eq_some'.mp h
      rw [← hw] at hcont
      cases hcont with
      | inArr hx hsub =>
        obtain ⟨x0, _hx0, hfx0⟩ := optMapItems_mem _ _ _ h1 _ hx
        exact ih _ _ hfx0 m'' hsub f hf
    | obj m =>
      rw [cleanRec_obj] at h
      obtain ⟨m5, h1, hw⟩ := Option.map_eq_some'.mp h
      rw [← hw] at hcont
      cases hcont with
      | refl =>
        rcases List.mem_append.mp hf with h7 | h10
        · rw [optMapEntries_hasKey _ _ _ h1, hasKey_normalizeTypeField]
          exact hasKey_removeKeys_mem _ _ _ h7
        · obtain ⟨fl, hfl, hffl⟩ := List.mem_map.mp h10
          have hnot7 : f ∉ other_fields_to_remove := vf_names_not_other f h10
          have hnotdesc : f ≠ "description" := vf_names_ne_desc f h10
          rw [optMapEntries_hasKey _ _ _ h1, hasKey_normalizeTypeField,
            hasKey_removeKeys_not_mem _ _ _ hnot7,
            hasKey_appendValidation_ne _ _ _ hnotdesc]
          exact hasKey_collectConstraints_of_mem validation_fields m f fl.2
            (by rw [← hffl, Prod.mk.eta]; exact hfl)
      | inObj hmem hsub =>
        obtain ⟨v4, _hv4mem, hv4⟩ := optMapEntries_mem _ _ _ h1 _ hmem
        exact ih _ _ hv4 m'' hsub f hf

/-! ### Case-specific unfoldings of `flatten_refs` and `clean_json_schema` -/

theorem flatten_refs_succ_eq (defs : JObj) (fuel : Nat) (m : JObj) :
    flatten_refs defs (fuel+1) m =
      (match jget "$ref" m with
        | some (Json.str refPath) =>
            match jget (lastSegment refPath) defs with
            | some (Json.obj defMap) =>
                flatten_refs defs fuel (mergeAbsent (jremove "$ref" m) defMap)
            | _ => some (jremove "$ref" m)
        | some _ => some (jremove "$ref" m)
        | none => some m).bind
        (fun m2 => flattenChildren (fun cm => flatten_refs defs fuel cm) m2) := rfl

theorem flatten_refs_succ_noref (defs : JObj) (fuel : Nat) (m : JObj)
    (href : jget "$ref" m = none) :
    flatten_refs defs (fuel+1) m =
      flattenChildren (fun cm => flatten_refs defs fuel cm) m := by
  rw [flatten_refs_succ_eq, href]
  rfl

theorem flatten_refs_succ_nonstr (defs : JObj) (fuel : Nat) (m : JObj) (v : Json)
    (href : jget "$ref" m = some v) (hnot : ∀ s, v ≠ Json.str s) :
    flatten_refs defs (fuel+1) m =
      flattenChildren (fun cm => flatten_refs defs fuel cm) (jremove "$ref" m) := by
  rw [flatten_refs_succ_eq, href]
  cases v with
  | str s => exact absurd rfl (hnot s)
  | null => rfl
  | bool b => rfl
  | num n => rfl
  | arr l => rfl
  | obj o => rfl

theorem flatten_refs_succ_miss (defs : JObj) (fuel : Nat) (m : JObj) (p : String)
    (href : jget "$ref" m = some (Json.str p))
    (hmiss : jget (lastSegment p) defs = none) :
    flatten_refs defs (fuel+1) m =
      flattenChildren (fun cm => flatten_refs defs fuel cm) (jremove "$ref" m) := by
  rw [flatten_refs_succ_eq, href]
  simp only [hmiss]
  rfl

theorem flatten_refs_succ_merge (defs : JObj) (fuel : Nat) (m : JObj) (p : String)
    (dm : JObj) (href : jget "$ref" m = some (Json.str p))
    (hdef : jget (lastSegment p) defs = some (Json.obj dm)) :
    flatten_refs defs (fuel+1) m =
      (flatten_refs defs fuel (mergeAbsent (jremove "$ref" m) dm)).bind
        (fun m2 => flattenChildren (fun cm => flatten_refs defs fuel cm) m2) := by
  rw [flatten_refs_succ_eq, href]
  simp only [hdef]

theorem clean_json_schema_obj (fuel : Nat) (m : JObj) :
    clean_json_schema fuel (Json.obj m) =
      (if (extractDefs m).1.isEmpty then some (Json.obj (extractDefs m).2)
       else (flatten_refs (extractDefs m).1 fuel (extractDefs m).2).map Json.obj).bind
        (fun v1 => clean_json_schema_recursive fuel v1) := rfl

theorem clean_json_schema_nonobj (fuel : Nat) (v : Json)
    (h : ∀ m, v ≠ Json.obj m) :
    clean_json_schema fuel v = clean_json_schema_recursive fuel v := by
  cases v with
  | obj m => exact absurd rfl (h m)
  | null => rfl
  | bool b => rfl
  | num n => rfl
  | str s => rfl
  | arr l => rfl

theorem extractDefs_of_absent (m : JObj)
    (h1 : hasKey "$defs" m = false) (h2 : hasKey "definitions" m = false) :
    extractDefs m = ([], m) := by
  unfold extractDefs
  simp only [(hasKey_false_iff ..).mp h1, jremove_eq_self _ _ h1,
    (hasKey_false_iff ..).mp h2, jremove_eq_self _ _ h2]

/-! ### A cyclic definition table makes `flatten_refs` diverge -/


theorem flatten_cyclic_none :
    ∀ fuel, flatten_refs cyclicDefs fuel cyclicMap = none := by
  intro fuel
  induction fuel with
  | zero => rfl
  | succ fuel ih =>
    rw [flatten_refs_succ_merge cyclicDefs fuel cyclicMap "#/$defs/A" cyclicMap rfl rfl]
    rw [show mergeAbsent (jremove "$ref" cyclicMap) cyclicMap = cyclicMap from rfl]
    rw [ih]
    rfl

theorem clean_cyclic_none (fuel : Nat) : clean_json_schema fuel cyclicRoot = none := by
  show ((flatten_refs cyclicDefs fuel cyclicMap).map Json.obj).bind
    (fun v1 => clean_json_schema_recursive fuel v1) = none
  rw [flatten_cyclic_none fuel]
  rfl

/-! ### Depth of a tree and totality of the cleaning pass -/


theorem depth_mem_items (l : List Json) (x : Json) (h : x ∈ l) :
    Json.depth x ≤ Json.depthItems l := by
  induction l with
  | nil => simp at h
  | cons y rest ih =>
    rcases List.mem_cons.mp h with h1 | h1
    · subst h1
      exact le_max_left _ _
    · exact le_trans (ih h1) (le_max_right _ _)

theorem depth_mem_entries (m : JObj) (kv : String × Json) (h : kv ∈ m) :
    Json.depth kv.2 ≤ Json.depthEntries m := by
  induction m with
  | nil => simp at h
  | cons kv1 rest ih =>
    rcases List.mem_cons.mp h with h1 | h1
    · subst h1
      exact le_max_left _ _
    · exact le_trans (ih h1) (le_max_right _ _)

theorem depthEntries_le (m' m : JObj) (h : ∀ kv ∈ m', kv ∈ m) :
    Json.depthEntries m' ≤ Json.depthEntries m := by
  induction m' with
  | nil => simp [Json.depthEntries]
  | cons kv rest ih =>
    rw [Json.depthEntries]
    apply max_le
    · exact depth_mem_entries m kv (h kv (List.mem_cons_self _ _))
    · exact ih (fun kv2 hkv2 => h kv2 (List.mem_cons_of_mem _ hkv2))

theorem depth_lowerIfString (v : Json) : Json.depth (lowerIfString v) = Json.depth v := by
  cases v <;> rfl

theorem depthItems_map_lowerIfString (l : List Json) :
    Json.depthItems (l.map lowerIfString) = Json.depthItems l := by
  induction l with
  | nil => rfl
  | cons x rest ih =>
    simp only [List.map_cons, Json.depthItems, depth_lowerIfString, ih]

theorem depth_lowerTypeValue (v : Json) : Json.depth (lowerTypeValue v) = Json.depth v := by
  cases v with
  | arr l =>
    show 1 + Json.depthItems (l.map lowerIfString) = 1 + Json.depthItems l
    rw [depthItems_map_lowerIfString]
  | null => rfl
  | bool b => rfl
  | num n => rfl
  | str s => rfl
  | obj m => rfl

/-- The cleaning pass succeeds whenever the fuel exceeds the tree depth. -/
theorem cleanRec_total (n : Nat) :
    ∀ v, Json.depth v ≤ n → (clean_json_schema_recursive (n+1) v).isSome := by
  induction n with
  | zero =>
    intro v hd
    cases v with
    | null => rfl
    | bool b => rfl
    | num n => rfl
    | str s => rfl
    | arr l => simp [Json.depth] at hd
    | obj m => simp [Json.depth] at hd
  | succ n ih =>
    intro v hd
    cases v with
    | null => rfl
    | bool b => rfl
    | num n => rfl
    | str s => rfl
    | arr l =>
      rw [cleanRec_arr]
      have hitems : Json.depthItems l ≤ n := by
        rw [show Json.depth (Json.arr l) = 1 + Json.depthItems l from rfl] at hd
        omega
      have h1 : (optMapItems (fun v => clean_json_schema_recursive (n+1) v) l).isSome :=
        optMapItems_isSome _ _ (fun x hx =>
          ih x (le_trans (depth_mem_items l x hx) hitems))
      obtain ⟨l2, hl2⟩ := Option.isSome_iff_exists.mp h1
      simp [hl2]
    | obj m =>
      rw [cleanRec_obj]
      have hentries : Json.depthEntries m ≤ n := by
        rw [show Json.depth (Json.obj m) = 1 + Json.depthEntries m from rfl] at hd
        omega
      have h1 : (optMapEntries (fun v => clean_json_schema_recursive (n+1) v)
          (normalizeTypeField (removeKeys other_fields_to_remove
            (appendValidation (collectConstraints validation_fields m).1
              (collectConstraints validation_fields m).2)))).isSome := by
        apply optMapEntries_isSome
        intro kv hkv
        rcases mem_ownKeys_origin m kv hkv with ⟨s, hs⟩ | ⟨v0, hv0mem, hv0⟩
        · rw [hs]
          apply ih
          show Json.depth (Json.str s) ≤ n
          simp [Json.depth]
        · have hdep : Json.depth kv.2 ≤ Json.depthEntries m := by
            rcases hv0 with h2 | h2
            · rw [h2]
              exact depth_mem_entries m (kv.1, v0) hv0mem
            · rw [h2, depth_lowerTypeValue]
              exact depth_mem_entries m (kv.1, v0) hv0mem
          exact ih kv.2 (le_trans hdep hentries)
      obtain ⟨m5, hm5⟩ := Option.isSome_iff_exists.mp h1
      simp [hm5]

/-! ### Weight certificates: `flatten_refs` terminates on certified tables -/

theorem refWeightEntries_cons (defs : JObj) (bw : String → Nat)
    (kv : String × Json) (rest : JObj) :
    refWeightEntries defs bw (kv :: rest) =
      refWeight defs bw kv.2 + refWeightEntries defs bw rest := rfl

theorem refWeightItems_cons (defs : JObj) (bw : String → Nat)
    (x : Json) (rest : List Json) :
    refWeightItems defs bw (x :: rest) =
      refWeight defs bw x + refWeightItems defs bw rest := rfl

theorem refWeight_obj (defs : JObj) (bw : String → Nat) (m : JObj) :
    refWeight defs bw (Json.obj m) =
      1 + refWeightEntries defs bw m + refTermW defs bw m := rfl

theorem refWeight_arr (defs : JObj) (bw : String → Nat) (l : List Json) :
    refWeight defs bw (Json.arr l) = 1 + refWeightItems defs bw l := rfl

theorem depthItems_le_refWeightItems (defs : JObj) (bw : String → Nat) (l : List Json)
    (h : ∀ x ∈ l, Json.depth x ≤ refWeight defs bw x) :
    Json.depthItems l ≤ refWeightItems defs bw l := by
  induction l with
  | nil => exact le_refl _
  | cons x rest ih =>
    have h1 := h x (List.mem_cons_self _ _)
    have h2 := ih (fun y hy => h y (List.mem_cons_of_mem _ hy))
    have e1 : Json.depthItems (x :: rest) = max (Json.depth x) (Json.depthItems rest) := rfl
    rw [e1, refWeightItems_cons]
    exact max_le (by omega) (by omega)

theorem depthEntries_le_refWeightEntries (defs : JObj) (bw : String → Nat) (m : JObj)
    (h : ∀ kv ∈ m, Json.depth kv.2 ≤ refWeight defs bw kv.2) :
    Json.depthEntries m ≤ refWeightEntries defs bw m := by
  induction m with
  | nil => exact le_refl _
  | cons kv rest ih =>
    have h1 := h kv (List.mem_cons_self _ _)
    have h2 := ih (fun y hy => h y (List.mem_cons_of_mem _ hy))
    have e1 : Json.depthEntries (kv :: rest) =
      max (Json.depth kv.2) (Json.depthEntries rest) := rfl
    rw [e1, refWeightEntries_cons]
    exact max_le (by omega) (by omega)

theorem depth_le_refWeight_aux (defs : JObj) (bw : String → Nat) :
    ∀ n v, Json.depth v ≤ n → Json.depth v ≤ refWeight defs bw v := by
  intro n
  induction n with
  | zero =>
    intro v hd
    omega
  | succ n ih =>
    intro v hd
    cases v with
    | null => exact Nat.zero_le _
    | bool b => exact Nat.zero_le _
    | num k => exact Nat.zero_le _
    | str s => exact Nat.zero_le _
    | arr l =>
      have e1 : Json.depth (Json.arr l) = 1 + Json.depthItems l := rfl
      rw [e1, refWeight_arr]
      have h1 : Json.depthItems l ≤ refWeightItems defs bw l :=
        depthItems_le_refWeightItems defs bw l (fun x hx =>
          ih x (by have h2 := depth_mem_items l x hx; rw [e1] at hd; omega))
      omega
    | obj m =>
      have e1 : Json.depth (Json.obj m) = 1 + Json.depthEntries m := rfl
      rw [e1, refWeight_obj]
      have h1 : Json.depthEntries m ≤ refWeightEntries defs bw m :=
        depthEntries_le_refWeightEntries defs bw m (fun kv hkv =>
          ih kv.2 (by have h2 := depth_mem_entries m kv hkv; rw [e1] at hd; omega))
      omega

theorem depth_le_refWeight (defs : JObj) (bw : String → Nat) (v : Json) :
    Json.depth v ≤ refWeight defs bw v :=
  depth_le_refWeight_aux defs bw (Json.depth v) v (le_refl _)

theorem refWeightEntries_append (defs : JObj) (bw : String → Nat) (a b : JObj) :
    refWeightEntries defs bw (a ++ b) =
      refWeightEntries defs bw a + refWeightEntries defs bw b := by
  induction a with
  | nil => simp [refWeightEntries]
  | cons kv rest ih =>
    have e1 : (kv :: rest) ++ b = kv :: (rest ++ b) := rfl
    rw [e1, refWeightEntries_cons, refWeightEntries_cons, ih]
    omega

theorem refWeightEntries_entryOrInsert (defs : JObj) (bw : String → Nat)
    (k : String) (v : Json) (m : JObj) :
    refWeightEntries defs bw (entryOrInsert k v m) ≤
      refWeightEntries defs bw m + refWeight defs bw v := by
  unfold entryOrInsert
  by_cases h : hasKey k m
  · rw [if_pos h]
    omega
  · rw [if_neg h, refWeightEntries_append]
    have e1 : refWeightEntries defs bw [(k, v)] = refWeight defs bw v + 0 := rfl
    omega

theorem refWeightEntries_mergeAbsent (defs : JObj) (bw : String → Nat) (m dm : JObj) :
    refWeightEntries defs bw (mergeAbsent m dm) ≤
      refWeightEntries defs bw m + refWeightEntries defs bw dm := by
  induction dm generalizing m with
  | nil => exact le_refl _
  | cons kv rest ih =>
    rw [mergeAbsent_cons]
    have h1 := ih (entryOrInsert kv.1 kv.2 m)
    have h2 := refWeightEntries_entryOrInsert defs bw kv.1 kv.2 m
    rw [refWeightEntries_cons]
    omega

theorem refWeightEntries_jremove (defs : JObj) (bw : String → Nat) (k : String) (m : JObj) :
    refWeightEntries defs bw (jremove k m) ≤ refWeightEntries defs bw m := by
  induction m with
  | nil => exact le_refl _
  | cons kv rest ih =>
    obtain ⟨k1, v⟩ := kv
    rw [jremove_cons, refWeightEntries_cons]
    by_cases h : k1 = k
    · rw [if_pos h]
      omega
    · rw [if_neg h, refWeightEntries_cons]
      omega

theorem refTermW_merge (defs : JObj) (bw : String → Nat) (m dm : JObj) :
    refTermW defs bw (mergeAbsent (jremove "$ref" m) dm) = refTermW defs bw dm := by
  unfold refTermW
  rw [jget_mergeAbsent, jget_jremove_self, Option.none_or]

theorem refTermW_jremove_self (defs : JObj) (bw : String → Nat) (m : JObj) :
    refTermW defs bw (jremove "$ref" m) = 0 := by
  unfold refTermW
  rw [jget_jremove_self]

theorem refWeight_merge_lt (defs : JObj) (bw : String → Nat) (m dm : JObj) (p : String)
    (hcert : WeightCert defs bw)
    (href : jget "$ref" m = some (Json.str p))
    (hdef : jget (lastSegment p) defs = some (Json.obj dm)) :
    refWeight defs bw (Json.obj (mergeAbsent (jremove "$ref" m) dm)) + 2 ≤
      refWeight defs bw (Json.obj m) := by
  have h1 := refWeightEntries_mergeAbsent defs bw (jremove "$ref" m) dm
  have h2 := refWeightEntries_jremove defs bw "$ref" m
  have h3 := refTermW_merge defs bw m dm
  have h4 := hcert (lastSegment p) dm hdef
  have h5 : refTermW defs bw m = bw (lastSegment p) := by
    unfold refTermW
    simp only [href, hdef]
  have e1 := refWeight_obj defs bw (mergeAbsent (jremove "$ref" m) dm)
  have e2 := refWeight_obj defs bw m
  have e3 := refWeight_obj defs bw dm
  omega

theorem optMapItems_cons (g : Json → Option Json) (x : Json) (rest : List Json) :
    optMapItems g (x :: rest) =
      (g x).bind (fun y => (optMapItems g rest).bind (fun rest2 => some (y :: rest2))) := rfl

theorem flattenChildren_cons (f : JObj → Option JObj) (k : String) (v : Json) (rest : JObj) :
    flattenChildren f ((k, v) :: rest) =
      (match v with
        | Json.obj childMap => (f childMap).map Json.obj
        | Json.arr items =>
            (optMapItems (fun item =>
              match item with
              | Json.obj itemMap => (f itemMap).map Json.obj
              | other => some other) items).map Json.arr
        | _other => some v).bind (fun w =>
        (flattenChildren f rest).bind (fun rest2 => some ((k, w) :: rest2))) := rfl

theorem optMapItems_total_weight (defs : JObj) (bw : String → Nat)
    (f : JObj → Option JObj) (N : Nat)
    (hrec : ∀ cm : JObj, refWeight defs bw (Json.obj cm) < N →
      ∃ cm', f cm = some cm' ∧
        refWeight defs bw (Json.obj cm') ≤ refWeight defs bw (Json.obj cm))
    (items : List Json) :
    refWeightItems defs bw items < N →
    ∃ items', optMapItems (fun item =>
        match item with
        | Json.obj itemMap => (f itemMap).map Json.obj
        | other => some other) items = some items' ∧
      refWeightItems defs bw items' ≤ refWeightItems defs bw items := by
  induction items with
  | nil => exact fun _ => ⟨[], rfl, le_refl _⟩
  | cons x rest ih =>
    intro hN
    rw [refWeightItems_cons] at hN
    obtain ⟨rest', hrest', hrle⟩ := ih (by omega)
    cases x with
    | obj im =>
      have him : refWeight defs bw (Json.obj im) < N := by omega
      obtain ⟨im', him', hile⟩ := hrec im him
      refine ⟨Json.obj im' :: rest', ?_, ?_⟩
      · rw [optMapItems_cons]
        simp only [him', hrest']
        rfl
      · rw [refWeightItems_cons, refWeightItems_cons]
        omega
    | null =>
      refine ⟨Json.null :: rest', ?_, ?_⟩
      · rw [optMapItems_cons]
        simp only [hrest']
        rfl
      · rw [refWeightItems_cons, refWeightItems_cons]
        omega
    | bool b =>
      refine ⟨Json.bool b :: rest', ?_, ?_⟩
      · rw [optMapItems_cons]
        simp only [hrest']
        rfl
      · rw [refWeightItems_cons, refWeightItems_cons]
        omega
    | num n =>
      refine ⟨Json.num n :: rest', ?_, ?_⟩
      · rw [optMapItems_cons]
        simp only [hrest']
        rfl
      · rw [refWeightItems_cons, refWeightItems_cons]
        omega
    | str s =>
      refine ⟨Json.str s :: rest', ?_, ?_⟩
      · rw [optMapItems_cons]
        simp only [hrest']
        rfl
      · rw [refWeightItems_cons, refWeightItems_cons]
        omega
    | arr l =>
      refine ⟨Json.arr l :: rest', ?_, ?_⟩
      · rw [optMapItems_cons]
        simp only [hrest']
        rfl
      · rw [refWeightItems_cons, refWeightItems_cons]
        omega

theorem flattenChildren_total_weight (defs : JObj) (bw : String → Nat)
    (f : JObj → Option JObj) (N : Nat)
    (hrec : ∀ cm : JObj, refWeight defs bw (Json.obj cm) < N →
      ∃ cm', f cm = some cm' ∧
        refWeight defs bw (Json.obj cm') ≤ refWeight defs bw (Json.obj cm))
    (m : JObj) :
    refWeightEntries defs bw m < N →
    ∃ m', flattenChildren f m = some m' ∧
      refWeightEntries defs bw m' ≤ refWeightEntries defs bw m := by
  induction m with
  | nil => exact fun _ => ⟨[], rfl, le_refl _⟩
  | cons kv rest ih =>
    intro hN
    obtain ⟨k, v⟩ := kv
    have hN' : refWeight defs bw v + refWeightEntries defs bw rest < N := hN
    obtain ⟨rest', hrest', hrle⟩ := ih (by omega)
    cases v with
    | obj cm =>
      have hcm : refWeight defs bw (Json.obj cm) < N := hN'.trans_le' (by omega)
      obtain ⟨cm', hcm', hcmle⟩ := hrec cm (by omega)
      refine ⟨(k, Json.obj cm') :: rest', ?_, ?_⟩
      · rw [flattenChildren_cons]
        simp only [hcm', hrest']
        rfl
      · show refWeight defs bw (Json.obj cm') + refWeightEntries defs bw rest' ≤
          refWeight defs bw (Json.obj cm) + refWeightEntries defs bw rest
        omega
    | arr items =>
      have hitems : refWeightItems defs bw items < N := by
        have e : refWeight defs bw (Json.arr items) = 1 + refWeightItems defs bw items := rfl
        omega
      obtain ⟨items', hitems', hile⟩ := optMapItems_total_weight defs bw f N hrec items hitems
      refine ⟨(k, Json.arr items') :: rest', ?_, ?_⟩
      · rw [flattenChildren_cons]
        simp only [hitems', hrest']
        rfl
      · show refWeight defs bw (Json.arr items') + refWeightEntries defs bw rest' ≤
          refWeight defs bw (Json.arr items) + refWeightEntries defs bw rest
        have e1 : refWeight defs bw (Json.arr items') = 1 + refWeightItems defs bw items' := rfl
        have e2 : refWeight defs bw (Json.arr items) = 1 + refWeightItems defs bw items := rfl
        omega
    | null =>
      refine ⟨(k, Json.null) :: rest', ?_, ?_⟩
      · rw [flattenChildren_cons]
        simp only [hrest']
        rfl
      · show refWeight defs bw Json.null + refWeightEntries defs bw rest' ≤
          refWeight defs bw Json.null + refWeightEntries defs bw rest
        omega
    | bool b =>
      refine ⟨(k, Json.bool b) :: rest', ?_, ?_⟩
      · rw [flattenChildren_cons]
        simp only [hrest']
        rfl
      · show refWeight defs bw (Json.bool b) + refWeightEntries defs bw rest' ≤
          refWeight defs bw (Json.bool b) + refWeightEntries defs bw rest
        omega
    | num n =>
      refine ⟨(k, Json.num n) :: rest', ?_, ?_⟩
      · rw [flattenChildren_cons]
        simp only [hrest']
        rfl
      · show refWeight defs bw (Json.num n) + refWeightEntries defs bw rest' ≤
          refWeight defs bw (Json.num n) + refWeightEntries defs bw rest
        omega
    | str s =>
      refine ⟨(k, Json.str s) :: rest', ?_, ?_⟩
      · rw [flattenChildren_cons]
        simp only [hrest']
        rfl
      · show refWeight defs bw (Json.str s) + refWeightEntries defs bw rest' ≤
          refWeight defs bw (Json.str s) + refWeightEntries defs bw rest
        omega

theorem refTermW_flattenChildren (defs : JObj) (bw : String → Nat)
    (f : JObj → Option JObj) (m m' : JObj)
    (h : flattenChildren f m = some m') :
    refTermW defs bw m' = refTermW defs bw m := by
  have h0 : optMapEntries (fun v =>
      match v with
      | Json.obj childMap => (f childMap).map Json.obj
      | Json.arr items =>
          (optMapItems (fun item =>
            match item with
            | Json.obj itemMap => (f itemMap).map Json.obj
            | other => some other) items).map Json.arr
      | _other => some v) m = some m' := h
  have hj := optMapEntries_jget _ _ _ h0 "$ref"
  unfold refTermW
  rw [hj]
  cases hv : jget "$ref" m with
  | none => rfl
  | some v =>
    cases v with
    | null => rfl
    | bool b => rfl
    | num n => rfl
    | str p => rfl
    | obj cm =>
      cases hf : f cm with
      | none => simp [hf]
      | some cm' => simp [hf]
    | arr items =>
      cases hi : optMapItems (fun item =>
          match item with
          | Json.obj itemMap => (f itemMap).map Json.obj
          | other => some other) items with
      | none => simp [hi]
      | some items' => simp [hi]

theorem flatten_refs_succ_hit_nonobj (defs : JObj) (fuel : Nat) (m : JObj) (p : String)
    (d : Json) (href : jget "$ref" m = some (Json.str p))
    (hdef : jget (lastSegment p) defs = some d) (hno : ∀ o : JObj, d ≠ Json.obj o) :
    flatten_refs defs (fuel+1) m =
      flattenChildren (fun cm => flatten_refs defs fuel cm) (jremove "$ref" m) := by
  rw [flatten_refs_succ_eq, href]
  simp only [hdef]
  cases d with
  | obj o => exact absurd rfl (hno o)
  | null => rfl
  | bool b => rfl
  | num n => rfl
  | str s => rfl
  | arr l => rfl

theorem flatten_removal_step (defs : JObj) (bw : String → Nat) (fuel : Nat) (m : JObj)
    (hrec : ∀ m2, refWeight defs bw (Json.obj m2) < fuel →
      ∃ m2', flatten_refs defs fuel m2 = some m2' ∧
        refWeight defs bw (Json.obj m2') ≤ refWeight defs bw (Json.obj m2))
    (hm : refWeight defs bw (Json.obj m) < fuel + 1) :
    ∃ m', flattenChildren (fun cm => flatten_refs defs fuel cm) (jremove "$ref" m) = some m' ∧
      refWeight defs bw (Json.obj m') ≤ refWeight defs bw (Json.obj m) := by
  have em := refWeight_obj defs bw m
  have h4 := refWeightEntries_jremove defs bw "$ref" m
  obtain ⟨m', h1, h2⟩ := flattenChildren_total_weight defs bw
    (fun cm => flatten_refs defs fuel cm) fuel hrec (jremove "$ref" m) (by omega)
  have h3 := refTermW_flattenChildren defs bw (fun cm => flatten_refs defs fuel cm)
    (jremove "$ref" m) m' h1
  have h5 := refTermW_jremove_self defs bw m
  have e1 := refWeight_obj defs bw m'
  exact ⟨m', h1, by omega⟩

theorem flatten_refs_total_weight (defs : JObj) (bw : String → Nat)
    (hcert : WeightCert defs bw) :
    ∀ fuel m, refWeight defs bw (Json.obj m) < fuel →
    ∃ m', flatten_refs defs fuel m = some m' ∧
      refWeight defs bw (Json.obj m') ≤ refWeight defs bw (Json.obj m) := by
  intro fuel
  induction fuel with
  | zero => exact fun m h => absurd h (by omega)
  | succ fuel ih =>
    intro m hm
    have em := refWeight_obj defs bw m
    cases href : jget "$ref" m with
    | none =>
      obtain ⟨m', h1, h2⟩ := flattenChildren_total_weight defs bw
        (fun cm => flatten_refs defs fuel cm) fuel ih m (by omega)
      have h3 := refTermW_flattenChildren defs bw (fun cm => flatten_refs defs fuel cm) m m' h1
      have e1 := refWeight_obj defs bw m'
      refine ⟨m', ?_, by omega⟩
      rw [flatten_refs_succ_noref defs fuel m href]
      exact h1
    | some v =>
      cases v with
      | str p =>
        cases hdef : jget (lastSegment p) defs with
        | none =>
          obtain ⟨m', h1, h2⟩ := flatten_removal_step defs bw fuel m ih hm
          refine ⟨m', ?_, h2⟩
          rw [flatten_refs_succ_miss defs fuel m p href hdef]
          exact h1
        | some d =>
          cases d with
          | obj dm =>
            have hlt := refWeight_merge_lt defs bw m dm p hcert href hdef
            obtain ⟨m3, h3, h3le⟩ := ih (mergeAbsent (jremove "$ref" m) dm) (by omega)
            have e3 := refWeight_obj defs bw m3
            obtain ⟨m', h4, h4le⟩ := flattenChildren_total_weight defs bw
              (fun cm => flatten_refs defs fuel cm) fuel ih m3 (by omega)
            have h5 := refTermW_flattenChildren defs bw
              (fun cm => flatten_refs defs fuel cm) m3 m' h4
            have e4 := refWeight_obj defs bw m'
            refine ⟨m', ?_, by omega⟩
            rw [flatten_refs_succ_merge defs fuel m p dm href hdef, h3]
            exact h4
          | null =>
            obtain ⟨m', h1, h2⟩ := flatten_removal_step defs bw fuel m ih hm
            refine ⟨m', ?_, h2⟩
            rw [flatten_refs_succ_hit_nonobj defs fuel m p Json.null href hdef
              (fun o => by simp)]
            exact h1
          | bool b =>
            obtain ⟨m', h1, h2⟩ := flatten_removal_step defs bw fuel m ih hm
            refine ⟨m', ?_, h2⟩
            rw [flatten_refs_succ_hit_nonobj defs fuel m p (Json.bool b) href hdef
              (fun o => by simp)]
            exact h1
          | num n =>
            obtain ⟨m', h1, h2⟩ := flatten_removal_step defs bw fuel m ih hm
            refine ⟨m', ?_, h2⟩
            rw [flatten_refs_succ_hit_nonobj defs fuel m p (Json.num n) href hdef
              (fun o => by simp)]
            exact h1
          | str s =>
            obtain ⟨m', h1, h2⟩ := flatten_removal_step defs bw fuel m ih hm
            refine ⟨m', ?_, h2⟩
            rw [flatten_refs_succ_hit_nonobj defs fuel m p (Json.str s) href hdef
              (fun o => by simp)]
            exact h1
          | arr l =>
            obtain ⟨m', h1, h2⟩ := flatten_removal_step defs bw fuel m ih hm
            refine ⟨m', ?_, h2⟩
            rw [flatten_refs_succ_hit_nonobj defs fuel m p (Json.arr l) href hdef
              (fun o => by simp)]
            exact h1
      | null =>
        obtain ⟨m', h1, h2⟩ := flatten_removal_step defs bw fuel m ih hm
        refine ⟨m', ?_, h2⟩
        rw [flatten_refs_succ_nonstr defs fuel m Json.null href (fun s => by simp)]
        exact h1
      | bool b =>
        obtain ⟨m', h1, h2⟩ := flatten_removal_step defs bw fuel m ih hm
        refine ⟨m', ?_, h2⟩
        rw [flatten_refs_succ_nonstr defs fuel m (Json.bool b) href (fun s => by simp)]
        exact h1
      | num n =>
        obtain ⟨m', h1, h2⟩ := flatten_removal_step defs bw fuel m ih hm
        refine ⟨m', ?_, h2⟩
        rw [flatten_refs_succ_nonstr defs fuel m (Json.num n) href (fun s => by simp)]
        exact h1
      | arr l =>
        obtain ⟨m', h1, h2⟩ := flatten_removal_step defs bw fuel m ih hm
        refine ⟨m', ?_, h2⟩
        rw [flatten_refs_succ_nonstr defs fuel m (Json.arr l) href (fun s => by simp)]
        exact h1
      | obj o =>
        obtain ⟨m', h1, h2⟩ := flatten_removal_step defs bw fuel m ih hm
        refine ⟨m', ?_, h2⟩
        rw [flatten_refs_succ_nonstr defs fuel m (Json.obj o) href (fun s => by simp)]
        exact h1

theorem cleanRec_some_of_depth_lt (fuel : Nat) (v : Json) (h : Json.depth v < fuel) :
    ∃ r, clean_json_schema_recursive fuel v = some r := by
  cases fuel with
  | zero => exact absurd h (by omega)
  | succ n => exact Option.isSome_iff_exists.mp (cleanRec_total n v (by omega))


/-! ### Remaining small helpers for the claim theorems -/

theorem desc_not_field : ∀ l, ("description", l) ∉ validation_fields := by
  intro l hl
  have h2 : "description" ∈ validation_fields.map Prod.fst :=
    List.mem_map_of_mem Prod.fst hl
  exact absurd h2 (by decide)

theorem cleanRec_str_eval (fuel : Nat) (s : String) (w : Json)
    (h : clean_json_schema_recursive fuel (Json.str s) = some w) : w = Json.str s := by
  cases fuel with
  | zero => simp [clean_json_schema_recursive] at h
  | succ fuel =>
    rw [cleanRec_str] at h
    injection h with h
    exact h.symm

theorem clean_json_schema_some_cleanRec (fuel : Nat) (t r : Json)
    (h : clean_json_schema fuel t = some r) :
    ∃ v1, clean_json_schema_recursive fuel v1 = some r := by
  cases t with
  | obj m =>
    rw [clean_json_schema_obj] at h
    obtain ⟨v1, _hv1, hcln⟩ := Option.bind_eq_some.mp h
    exact ⟨v1, hcln⟩
  | null => exact ⟨Json.null, h⟩
  | bool b => exact ⟨Json.bool b, h⟩
  | num n => exact ⟨Json.num n, h⟩
  | str s => exact ⟨Json.str s, h⟩
  | arr l => exact ⟨Json.arr l, h⟩

/-! ### Claim theorems -/

/-- Claim C1, counterexample: with no `$defs`/`definitions` at the root the
definition table is empty, `flatten_refs` is never invoked, and the `$ref`
key survives the whole transform — so the output does contain a node with a
`$ref` key, contradicting the claim as stated. -/
theorem C1_counterexample :
    clean_json_schema 9
        (Json.obj [("x", Json.obj [("$ref", Json.str "#/$defs/Missing")])]) =
      some (Json.obj [("x", Json.obj [("$ref", Json.str "#/$defs/Missing")])]) ∧
    ContainsNode (Json.obj [("x", Json.obj [("$ref", Json.str "#/$defs/Missing")])])
      (Json.obj [("$ref", Json.str "#/$defs/Missing")]) ∧
    hasKey "$ref" [("$ref", Json.str "#/$defs/Missing")] = true :=
  ⟨rfl, ContainsNode.inObj (List.mem_cons_self _ _) (ContainsNode.refl _), rfl⟩

/-- Claim C1, amended: when the definition table extracted at the root is
non-empty and normalize completes, no object node reached by the flattener's
traversal (the root, object values, and object elements of array values —
not objects inside arrays nested directly within arrays) contains a `$ref`
key. -/
theorem C1_theorem (fuel : Nat) (m : JObj) (t2 : Json)
    (h : clean_json_schema fuel (Json.obj m) = some t2)
    (hdefs : (extractDefs m).1.isEmpty = false) :
    ∀ m'', FlatReach t2 (Json.obj m'') → hasKey "$ref" m'' = false := by
  rw [clean_json_schema_obj] at h
  rw [if_neg (by simp [hdefs])] at h
  obtain ⟨v1, hv1, hcln⟩ := Option.bind_eq_some.mp h
  obtain ⟨m1, hm1, hv1e⟩ := Option.map_eq_some'.mp hv1
  rw [← hv1e] at hcln
  intro m'' hreach
  exact cleanRec_preserves_noVisitedRef fuel _ _ hcln
    (flatten_refs_noVisitedRef _ fuel _ _ hm1) m'' hreach

/-- Claim C1, witness: a concrete schema with a non-empty table whose output
root (a flattener-visited node) indeed has no `$ref` key. -/
theorem C1_witness :
    hasKey "$ref" [("home", Json.obj [])] = false :=
  C1_theorem 9
    [("$defs", Json.obj [("A", Json.null)]),
     ("home", Json.obj [("$ref", Json.str "#/$defs/Missing")])]
    (Json.obj [("home", Json.obj [])]) rfl rfl
    [("home", Json.obj [])] (FlatReach.refl _)

/-- Claim C2, counterexample: with an empty definition table (`home`'s
`$ref` names no definition and there is no `$defs` at all) the transform
leaves the `$ref` key in place and `home` does not become `{}` — the claim's
unconditional removal fails. -/
theorem C2_counterexample :
    clean_json_schema 9
        (Json.obj [("home", Json.obj [("$ref", Json.str "#/$defs/Missing")])]) =
      some (Json.obj [("home", Json.obj [("$ref", Json.str "#/$defs/Missing")])]) ∧
    hasKey "$ref" [("$ref", Json.str "#/$defs/Missing")] = true ∧
    Json.obj [("$ref", Json.str "#/$defs/Missing")] ≠ Json.obj [] :=
  ⟨rfl, rfl, by simp⟩

/-- Claim C2, amended: once the flattener actually runs (non-empty table)
and visits an object node whose `$ref` string's last path segment misses the
table, it removes the `$ref` key and merges nothing — a visited node whose
only key was that `$ref` becomes `{}`; concretely, a root with a non-empty
`$defs` and `home: {"$ref": "#/$defs/Missing"}` normalizes to
`home == {}` with no error. -/
theorem C2_theorem (defs : JObj) (fuel : Nat) (p : String)
    (hmiss : jget (lastSegment p) defs = none) :
    flatten_refs defs (fuel+1) [("$ref", Json.str p)] = some [] ∧
    (∀ m, jget "$ref" m = some (Json.str p) →
      flatten_refs defs (fuel+1) m =
        flattenChildren (fun cm => flatten_refs defs fuel cm) (jremove "$ref" m)) ∧
    clean_json_schema 9
        (Json.obj [("$defs", Json.obj [("Other", Json.null)]),
                   ("home", Json.obj [("$ref", Json.str "#/$defs/Missing")])]) =
      some (Json.obj [("home", Json.obj [])]) := by
  refine ⟨?_, ?_, rfl⟩
  · rw [flatten_refs_succ_miss defs fuel [("$ref", Json.str p)] p (by rfl) hmiss]
    rfl
  · intro m hm
    exact flatten_refs_succ_miss defs fuel m p hm hmiss

/-- Claim C2, witness: the amended statement at a concrete table and path. -/
theorem C2_witness :
    flatten_refs [("Other", Json.null)] 4 [("$ref", Json.str "#/$defs/Missing")] =
      some [] :=
  (C2_theorem [("Other", Json.null)] 3 "#/$defs/Missing" rfl).1


/-- Claim C3, counterexample: flattening can merge a definition body that
itself contains a `$defs` key back into the root; the second pass then
consumes that `$defs`, so applying the transform twice differs from applying
it once. -/
theorem C3_counterexample :
    clean_json_schema 20
        (Json.obj [("$defs", Json.obj [("A", Json.obj [("$defs", Json.obj [("B", Json.num 1)])])]),
                   ("$ref", Json.str "#/$defs/A")]) =
      some (Json.obj [("$defs", Json.obj [("B", Json.num 1)])]) ∧
    (clean_json_schema 20
        (Json.obj [("$defs", Json.obj [("A", Json.obj [("$defs", Json.obj [("B", Json.num 1)])])]),
                   ("$ref", Json.str "#/$defs/A")])).bind (clean_json_schema 20) =
      some (Json.obj []) ∧
    Json.obj [("$defs", Json.obj [("B", Json.num 1)])] ≠ Json.obj [] :=
  ⟨rfl, rfl, by simp⟩

/-- Claim C3, amended: the transform is idempotent on every input whose
first-pass output has no root-level `$defs`/`definitions` key (the only way
a second pass can differ, as the counterexample shows, is flattening
re-introducing such a key from a merged definition body): under that proviso
a second application at the same fuel returns the first output unchanged. -/
theorem C3_theorem (fuel : Nat) (t t1 : Json)
    (h : clean_json_schema fuel t = some t1)
    (hroot : rootDefsFree t1 = true) :
    clean_json_schema fuel t1 = some t1 := by
  obtain ⟨v1, hv1⟩ := clean_json_schema_some_cleanRec fuel t t1 h
  have hfix := cleanRec_fix fuel v1 t1 hv1
  cases t1 with
  | obj m1 =>
    have hd : hasKey "$defs" m1 = false ∧ hasKey "definitions" m1 = false := by
      simp only [rootDefsFree, Bool.not_eq_true', Bool.or_eq_false_iff] at hroot
      exact hroot
    rw [clean_json_schema_obj, extractDefs_of_absent m1 hd.1 hd.2]
    exact hfix
  | null => exact hfix
  | bool b => exact hfix
  | num n => exact hfix
  | str s => exact hfix
  | arr l => exact hfix

/-- Claim C3, witness: a second pass fixes the output of a first pass on a
schema exercising constraint softening. -/
theorem C3_witness :
    clean_json_schema 3 (Json.obj [("description", Json.str " [Validation: minLen: 1]")]) =
      some (Json.obj [("description", Json.str " [Validation: minLen: 1]")]) :=
  C3_theorem 3 (Json.obj [("minLength", Json.num 1)])
    (Json.obj [("description", Json.str " [Validation: minLen: 1]")]) rfl rfl


/-- Claim C4, counterexample: on a node whose existing `description` is not
a string (here the number `7`), the keyword `minimum` is removed but no
`" [Validation: ...]"` text is appended anywhere — the claim's unconditional
"appended to the node's description" fails. -/
theorem C4_counterexample :
    clean_json_schema 3 (Json.obj [("minimum", Json.num 2), ("description", Json.num 7)]) =
      some (Json.obj [("description", Json.num 7)]) ∧
    jget "description" [("description", Json.num 7)] = some (Json.num 7) ∧
    (∀ s : String, (Json.num 7 : Json) ≠ Json.str s) :=
  ⟨rfl, rfl, by simp⟩

/-- Claim C4, amended: each present keyword of the fixed list is removed, in
that exact order, and rendered as `"<label>: <value>"` (the collected list
equals the spec-side `constraintStringsSpec`); when constraints were present
the `" [Validation: ...]"` suffix (comma-space joined, in order) is written
into `description` — creating an empty-string description when none exists
and appending to an existing STRING description.  (When the existing
description is not a string the suffix is silently dropped; see C10.) -/
theorem C4_theorem (fuel : Nat) (m : JObj) (r : Json)
    (h : clean_json_schema_recursive (fuel+1) (Json.obj m) = some r) :
    ∃ m', r = Json.obj m' ∧
      (collectConstraints validation_fields m).1 = constraintStringsSpec m ∧
      (∀ fl ∈ validation_fields, hasKey fl.1 m' = false) ∧
      (constraintStringsSpec m ≠ [] →
        (jget "description" m = none →
          jget "description" m' = some (Json.str (" [Validation: " ++
            String.intercalate ", " (constraintStringsSpec m) ++ "]"))) ∧
        (∀ s, jget "description" m = some (Json.str s) →
          jget "description" m' = some (Json.str (s ++ (" [Validation: " ++
            String.intercalate ", " (constraintStringsSpec m) ++ "]"))))) := by
  rw [cleanRec_obj] at h
  obtain ⟨m5, h1, hw⟩ := Option.map_eq_some'.mp h
  have hspec : (collectConstraints validation_fields m).1 = constraintStringsSpec m :=
    collectConstraints_fst_spec validation_fields m (by decide)
  refine ⟨m5, hw.symm, hspec, ?_, ?_⟩
  · intro fl hfl
    have h10 : fl.1 ∈ validation_fields.map Prod.fst := List.mem_map_of_mem Prod.fst hfl
    rw [optMapEntries_hasKey _ _ _ h1, hasKey_normalizeTypeField,
      hasKey_removeKeys_not_mem _ _ _ (vf_names_not_other fl.1 h10),
      hasKey_appendValidation_ne _ _ _ (vf_names_ne_desc fl.1 h10)]
    exact hasKey_collectConstraints_of_mem validation_fields m fl.1 fl.2
      (by rw [Prod.mk.eta]; exact hfl)
  · intro hcs
    have hcs2 : (collectConstraints validation_fields m).1 ≠ [] := by
      rw [hspec]
      exact hcs
    have hdesc1 : jget "description" (collectConstraints validation_fields m).2 =
        jget "description" m :=
      jget_collectConstraints_not_mem _ _ _ desc_not_field
    have hj54 : jget "description" m5 =
        (jget "description" (normalizeTypeField (removeKeys other_fields_to_remove
          (appendValidation (collectConstraints validation_fields m).1
            (collectConstraints validation_fields m).2)))).bind
          (fun v => clean_json_schema_recursive fuel v) :=
      optMapEntries_jget _ _ _ h1 "description"
    have hj43 : jget "description" (normalizeTypeField (removeKeys other_fields_to_remove
        (appendValidation (collectConstraints validation_fields m).1
          (collectConstraints validation_fields m).2))) =
        jget "description" (removeKeys other_fields_to_remove
          (appendValidation (collectConstraints validation_fields m).1
            (collectConstraints validation_fields m).2)) := by
      rw [jget_normalizeTypeField]
      rw [if_neg (by decide)]
    have hj32 : jget "description" (removeKeys other_fields_to_remove
        (appendValidation (collectConstraints validation_fields m).1
          (collectConstraints validation_fields m).2)) =
        jget "description" (appendValidation (collectConstraints validation_fields m).1
          (collectConstraints validation_fields m).2) :=
      jget_removeKeys_not_mem _ _ _ (by decide)
    have hdesc2 := jget_appendValidation_desc (collectConstraints validation_fields m).1
      (collectConstraints validation_fields m).2 hcs2
    constructor
    · intro hdnone
      have hd4 : jget "description" (normalizeTypeField (removeKeys other_fields_to_remove
          (appendValidation (collectConstraints validation_fields m).1
            (collectConstraints validation_fields m).2))) =
          some (Json.str ("" ++ validationSuffix (collectConstraints validation_fields m).1)) := by
        rw [hj43, hj32, hdesc2, hdesc1, hdnone]
      have hkey : hasKey "description" m5 = true := by
        rw [optMapEntries_hasKey _ _ _ h1, hasKey, hd4]
        rfl
      obtain ⟨w, hwv⟩ := (hasKey_true_iff ..).mp hkey
      have hfw : clean_json_schema_recursive fuel
          (Json.str ("" ++ validationSuffix (collectConstraints validation_fields m).1)) =
          some w := by
        rw [hj54, hd4] at hwv
        simpa using hwv
      have hw2 := cleanRec_str_eval _ _ _ hfw
      rw [hwv, hw2, hspec]
      rfl
    · intro s hdsome
      have hd4 : jget "description" (normalizeTypeField (removeKeys other_fields_to_remove
          (appendValidation (collectConstraints validation_fields m).1
            (collectConstraints validation_fields m).2))) =
          some (Json.str (s ++ validationSuffix (collectConstraints validation_fields m).1)) := by
        rw [hj43, hj32, hdesc2, hdesc1, hdsome]
      have hkey : hasKey "description" m5 = true := by
        rw [optMapEntries_hasKey _ _ _ h1, hasKey, hd4]
        rfl
      obtain ⟨w, hwv⟩ := (hasKey_true_iff ..).mp hkey
      have hfw : clean_json_schema_recursive fuel
          (Json.str (s ++ validationSuffix (collectConstraints validation_fields m).1)) =
          some w := by
        rw [hj54, hd4] at hwv
        simpa using hwv
      have hw2 := cleanRec_str_eval _ _ _ hfw
      rw [hwv, hw2, hspec]
      rfl

/-- Claim C4, witness: the amended statement at the concrete node
`{"minLength": 1}` (no prior description). -/
theorem C4_witness :
    ∃ m', (Json.obj [("description", Json.str " [Validation: minLen: 1]")] : Json) =
        Json.obj m' ∧
      (collectConstraints validation_fields [("minLength", Json.num 1)]).1 =
        constraintStringsSpec [("minLength", Json.num 1)] ∧
      (∀ fl ∈ validation_fields, hasKey fl.1 m' = false) ∧
      (constraintStringsSpec [("minLength", Json.num 1)] ≠ [] →
        (jget "description" [("minLength", Json.num 1)] = none →
          jget "description" m' = some (Json.str (" [Validation: " ++
            String.intercalate ", " (constraintStringsSpec [("minLength", Json.num 1)]) ++ "]"))) ∧
        (∀ s, jget "description" [("minLength", Json.num 1)] = some (Json.str s) →
          jget "description" m' = some (Json.str (s ++ (" [Validation: " ++
            String.intercalate ", " (constraintStringsSpec [("minLength", Json.num 1)]) ++ "]"))))) :=
  C4_theorem 2 [("minLength", Json.num 1)]
    (Json.obj [("description", Json.str " [Validation: minLen: 1]")]) rfl

/-- Claim C5 (confirmed): the merge copies a referenced definition's keys
into the referencing object only where absent (existing caller-local fields
win on collision); resolution re-runs on the same object, so transitive
chains flatten; and the spec's `Address` example and a two-step chain both
normalize as stated, with the root's `$defs` gone. -/
theorem C5_theorem :
    (∀ (m dm : JObj) (k : String), hasKey k m = true →
      jget k (mergeAbsent m dm) = jget k m) ∧
    (∀ (m dm : JObj) (k : String), hasKey k m = false →
      jget k (mergeAbsent m dm) = jget k dm) ∧
    clean_json_schema 20
        (Json.obj [("$defs", Json.obj [("Address", Json.obj
            [("type", Json.str "object"),
             ("properties", Json.obj [("city", Json.obj [("type", Json.str "string")])])])]),
          ("home", Json.obj [("$ref", Json.str "#/$defs/Address")])]) =
      some (Json.obj [("home", Json.obj
        [("type", Json.str "object"),
         ("properties", Json.obj [("city", Json.obj [("type", Json.str "string")])])])]) ∧
    hasKey "$defs" [("home", Json.obj
      [("type", Json.str "object"),
       ("properties", Json.obj [("city", Json.obj [("type", Json.str "string")])])])] = false ∧
    clean_json_schema 20
        (Json.obj [("$defs", Json.obj
            [("A", Json.obj [("$ref", Json.str "#/$defs/B")]),
             ("B", Json.obj [("x", Json.num 1)])]),
          ("node", Json.obj [("$ref", Json.str "#/$defs/A")])]) =
      some (Json.obj [("node", Json.obj [("x", Json.num 1)])]) :=
  ⟨jget_mergeAbsent_present, jget_mergeAbsent_absent, rfl, rfl, rfl⟩

/-- Claim C5, witness: collision keeps the caller-local field. -/
theorem C5_witness :
    jget "type" (mergeAbsent [("type", Json.str "x")]
      [("type", Json.str "y"), ("z", Json.num 1)]) = some (Json.str "x") :=
  C5_theorem.1 [("type", Json.str "x")] [("type", Json.str "y"), ("z", Json.num 1)] "type" rfl

/-- Claim C6 (confirmed): after normalize completes, no node anywhere in the
output contains `$schema`, `additionalProperties`, `enumCaseInsensitive`,
`enumNormalizeWhitespace`, `uniqueItems`, `format`, `default`, or any of the
ten validation keywords, regardless of the removed keys' values. -/
theorem C6_theorem (fuel : Nat) (t r : Json)
    (h : clean_json_schema fuel t = some r) :
    removed_key_names =
      ["$schema", "additionalProperties", "enumCaseInsensitive",
       "enumNormalizeWhitespace", "uniqueItems", "format", "default",
       "minLength", "maxLength", "minimum", "maximum", "minItems", "maxItems",
       "exclusiveMinimum", "exclusiveMaximum", "multipleOf", "pattern"] ∧
    ∀ m'', ContainsNode r (Json.obj m'') →
      ∀ f ∈ removed_key_names, hasKey f m'' = false := by
  refine ⟨rfl, ?_⟩
  obtain ⟨v1, hv1⟩ := clean_json_schema_some_cleanRec fuel t r h
  exact fun m'' hc f hf => cleanRec_removed_keys fuel v1 r hv1 m'' hc f hf

/-- Claim C6, witness: a node at depth (inside an array inside an object)
that carried `format` and `uniqueItems` has neither after the transform. -/
theorem C6_witness :
    hasKey "format" [("type", Json.str "string")] = false :=
  (C6_theorem 4
    (Json.obj [("anyOf", Json.arr
      [Json.obj [("type", Json.str "STRING"), ("format", Json.str "city"),
                 ("uniqueItems", Json.bool true)]])])
    (Json.obj [("anyOf", Json.arr [Json.obj [("type", Json.str "string")]])])
    rfl).2
    [("type", Json.str "string")]
    (ContainsNode.inObj (List.mem_cons_self _ _)
      (ContainsNode.inArr (List.mem_cons_self _ _) (ContainsNode.refl _)))
    "format" (by decide)

theorem forall2_lowerIfString (items : List Json) :
    List.Forall₂ (fun a b =>
      (∀ s, a = Json.str s → b = Json.str (strToLower s)) ∧
      ((∀ s, a ≠ Json.str s) → b = a)) items (items.map lowerIfString) := by
  induction items with
  | nil => exact List.Forall₂.nil
  | cons x rest ih =>
    rw [List.map_cons]
    refine List.Forall₂.cons ⟨?_, ?_⟩ ih
    · intro s hs
      rw [hs]
      rfl
    · intro hns
      cases x with
      | str s => exact absurd rfl (hns s)
      | null => rfl
      | bool b => rfl
      | num n => rfl
      | arr l => rfl
      | obj o => rfl

/-- Claim C7 (confirmed, about the type-normalization step): a string-valued
`type` is lowercased in place; an array-valued `type` has exactly its string
elements lowercased, element for element, with non-string elements left
untouched by the step; any other shape of `type` is left untouched with no
error; other keys are untouched by the step; and the end-to-end transform
turns `type: ["STRING", "Null"]` into the length-2 array
`["string", "null"]`. -/
theorem C7_theorem :
    (∀ (m : JObj) (s : String), jget "type" m = some (Json.str s) →
      jget "type" (normalizeTypeField m) = some (Json.str (strToLower s))) ∧
    (∀ (m : JObj) (items : List Json), jget "type" m = some (Json.arr items) →
      ∃ items2, jget "type" (normalizeTypeField m) = some (Json.arr items2) ∧
        List.Forall₂ (fun a b =>
          (∀ s, a = Json.str s → b = Json.str (strToLower s)) ∧
          ((∀ s, a ≠ Json.str s) → b = a)) items items2) ∧
    (∀ (m : JObj) (v : Json), jget "type" m = some v → (∀ s, v ≠ Json.str s) →
      (∀ l, v ≠ Json.arr l) → jget "type" (normalizeTypeField m) = some v) ∧
    (∀ (m : JObj) (k : String), k ≠ "type" →
      jget k (normalizeTypeField m) = jget k m) ∧
    clean_json_schema 5
        (Json.obj [("type", Json.arr [Json.str "STRING", Json.str "Null"])]) =
      some (Json.obj [("type", Json.arr [Json.str "string", Json.str "null"])]) := by
  refine ⟨?_, ?_, ?_, ?_, rfl⟩
  · intro m s hm
    rw [jget_normalizeTypeField, if_pos rfl, hm]
    rfl
  · intro m items hm
    refine ⟨items.map lowerIfString, ?_, forall2_lowerIfString items⟩
    rw [jget_normalizeTypeField, if_pos rfl, hm]
    rfl
  · intro m v hm hnstr hnarr
    rw [jget_normalizeTypeField, if_pos rfl, hm]
    cases v with
    | str s => exact absurd rfl (hnstr s)
    | arr l => exact absurd rfl (hnarr l)
    | null => rfl
    | bool b => rfl
    | num n => rfl
    | obj o => rfl
  · intro m k hk
    rw [jget_normalizeTypeField, if_neg hk]

/-- Claim C7, witness: the string case at a concrete node. -/
theorem C7_witness :
    jget "type" (normalizeTypeField [("type", Json.str "STRING")]) =
      some (Json.str "string") :=
  C7_theorem.1 [("type", Json.str "STRING")] "STRING" rfl

/-- Claim C8 (confirmed): a non-string `$ref` is removed with nothing merged
and no error; a string `$ref` resolves by its final `/`-segment, so a path
with no slash falls back to the literal path text as the lookup key
(`lastSegment "Missing" = "Missing"`), and when that key misses the table
the `$ref` is removed with nothing merged, like an unresolved reference. -/
theorem C8_theorem :
    (∀ (defs : JObj) (fuel : Nat) (m : JObj) (v : Json),
      jget "$ref" m = some v → (∀ s, v ≠ Json.str s) →
      flatten_refs defs (fuel+1) m =
        flattenChildren (fun cm => flatten_refs defs fuel cm) (jremove "$ref" m)) ∧
    (∀ (defs : JObj) (fuel : Nat) (m : JObj) (p : String),
      jget "$ref" m = some (Json.str p) → jget (lastSegment p) defs = none →
      flatten_refs defs (fuel+1) m =
        flattenChildren (fun cm => flatten_refs defs fuel cm) (jremove "$ref" m)) ∧
    lastSegment "Missing" = "Missing" ∧
    lastSegment "#/$defs/Foo" = "Foo" :=
  ⟨flatten_refs_succ_nonstr, flatten_refs_succ_miss, rfl, rfl⟩

/-- Claim C8, witness: a numeric `$ref` on a concrete node is dropped with
nothing merged. -/
theorem C8_witness :
    flatten_refs [("A", Json.null)] 4 [("$ref", Json.num 5)] =
      flattenChildren (fun cm => flatten_refs [("A", Json.null)] 3 cm)
        (jremove "$ref" [("$ref", Json.num 5)]) :=
  C8_theorem.1 [("A", Json.null)] 3 [("$ref", Json.num 5)] (Json.num 5) rfl
    (fun s => by simp)


/-- Claim C9, counterexample: on the self-referential schema `cyclicRoot`
resolution recurses without bound — no fuel suffices — so the transform is
not total over its input domain. -/
theorem C9_counterexample :
    (∀ fuel, clean_json_schema fuel cyclicRoot = none) ∧
    ¬(∀ t : Json, ∃ fuel r, clean_json_schema fuel t = some r) := by
  refine ⟨clean_cyclic_none, ?_⟩
  intro hall
  obtain ⟨fuel, r, hr⟩ := hall cyclicRoot
  rw [clean_cyclic_none fuel] at hr
  exact absurd hr (by simp)

/-- Claim C9, amended: the cleaning stage terminates on every input (fuel one
more than the tree depth suffices), and the whole transform terminates on
every non-object root and on every object root whose extracted definition
table admits a weight certificate — the formal acyclicity precondition: an
assignment of weights to definition names under which every object-valued
definition weighs strictly less than its own name (an empty table is
certified by any assignment; the witness certifies the non-empty Address
table of the reference-flattening example).  The self-referential table
`cyclicDefs` admits no certificate at all, matching the counterexample's
divergence. -/
theorem C9_theorem :
    (∀ v : Json, ∃ fuel r, clean_json_schema_recursive fuel v = some r) ∧
    (∀ (m : JObj) (bw : String → Nat), WeightCert (extractDefs m).1 bw →
      ∀ fuel, refWeight (extractDefs m).1 bw (Json.obj (extractDefs m).2) < fuel →
        ∃ r, clean_json_schema fuel (Json.obj m) = some r) ∧
    (∀ v : Json, (∀ m : JObj, v ≠ Json.obj m) → ∃ fuel r, clean_json_schema fuel v = some r) ∧
    (∀ bw : String → Nat, ¬ WeightCert cyclicDefs bw) := by
  refine ⟨?_, ?_, ?_, ?_⟩
  · intro v
    obtain ⟨r, hr⟩ := Option.isSome_iff_exists.mp
      (cleanRec_total (Json.depth v) v (le_refl _))
    exact ⟨Json.depth v + 1, r, hr⟩
  · intro m bw hcert fuel hfuel
    rw [clean_json_schema_obj]
    by_cases hempty : (extractDefs m).1.isEmpty
    · rw [if_pos hempty]
      have hdep : Json.depth (Json.obj (extractDefs m).2) < fuel :=
        lt_of_le_of_lt (depth_le_refWeight (extractDefs m).1 bw _) hfuel
      obtain ⟨r, hr⟩ := cleanRec_some_of_depth_lt fuel _ hdep
      exact ⟨r, hr⟩
    · rw [if_neg hempty]
      obtain ⟨m', hm', hw⟩ := flatten_refs_total_weight (extractDefs m).1 bw hcert fuel
        (extractDefs m).2 hfuel
      have hdep : Json.depth (Json.obj m') < fuel :=
        lt_of_le_of_lt (depth_le_refWeight (extractDefs m).1 bw _)
          (lt_of_le_of_lt hw hfuel)
      obtain ⟨r, hr⟩ := cleanRec_some_of_depth_lt fuel (Json.obj m') hdep
      refine ⟨r, ?_⟩
      rw [hm']
      exact hr
  · intro v hv
    obtain ⟨r, hr⟩ := Option.isSome_iff_exists.mp
      (cleanRec_total (Json.depth v) v (le_refl _))
    refine ⟨Json.depth v + 1, r, ?_⟩
    rw [clean_json_schema_nonobj _ _ hv]
    exact hr
  · intro bw hcert
    have h := hcert "A" cyclicMap rfl
    have e : refWeight cyclicDefs bw (Json.obj cyclicMap) = 1 + bw "A" := rfl
    omega

/-- Claim C9, witness: the constant assignment `constWeight` certifies the
non-empty Address definition table of the reference-flattening example, and
the amended theorem then yields termination of the whole transform on that
schema at fuel 7. -/
theorem C9_witness :
    WeightCert (extractDefs addressRoot).1 constWeight ∧
    refWeight (extractDefs addressRoot).1 constWeight
      (Json.obj (extractDefs addressRoot).2) < 7 ∧
    ∃ r, clean_json_schema 7 (Json.obj addressRoot) = some r := by
  have hcert : WeightCert (extractDefs addressRoot).1 constWeight := by
    intro B b h
    have h2 : jget B [("Address", Json.obj addressBody)] = some (Json.obj b) := h
    rw [jget_cons] at h2
    split at h2
    · next heq =>
      simp only [Option.some.injEq, Json.obj.injEq] at h2
      subst h2
      subst heq
      decide
    · next =>
      rw [jget_nil] at h2
      exact absurd h2 (by simp)
  exact ⟨hcert, by decide, C9_theorem.2.1 addressRoot constWeight hcert 7 (by decide)⟩


/-- Claim C10, counterexample: an object-valued `description` is NOT left
unchanged — no suffix is written, but the value is still cleaned recursively
(here its `format` key is removed). -/
theorem C10_counterexample :
    clean_json_schema 4
        (Json.obj [("minimum", Json.num 2),
                   ("description", Json.obj [("format", Json.str "x")])]) =
      some (Json.obj [("description", Json.obj [])]) ∧
    (Json.obj [] : Json) ≠ Json.obj [("format", Json.str "x")] :=
  ⟨rfl, by simp⟩

/-- Claim C10, amended: when an object node carries validation keywords but
its `description` value is not a string, the keywords are still removed and
no `" [Validation: ...]"` suffix is written anywhere — the description-append
step leaves the value alone — but the value is then cleaned recursively like
any other child; a scalar (non-container) description value is returned
unchanged. -/
theorem C10_theorem (fuel : Nat) (m : JObj) (r d : Json)
    (h : clean_json_schema_recursive (fuel+1) (Json.obj m) = some r)
    (hd : jget "description" m = some d) (hnstr : ∀ s, d ≠ Json.str s) :
    ∃ m' d2, r = Json.obj m' ∧
      clean_json_schema_recursive fuel d = some d2 ∧
      jget "description" m' = some d2 ∧
      (∀ fl ∈ validation_fields, hasKey fl.1 m' = false) ∧
      ((∀ l0, d ≠ Json.arr l0) → (∀ o0, d ≠ Json.obj o0) → d2 = d) := by
  rw [cleanRec_obj] at h
  obtain ⟨m5, h1, hw⟩ := Option.map_eq_some'.mp h
  have hdesc1 : jget "description" (collectConstraints validation_fields m).2 =
      jget "description" m :=
    jget_collectConstraints_not_mem _ _ _ desc_not_field
  have hd2 : jget "description" (appendValidation (collectConstraints validation_fields m).1
      (collectConstraints validation_fields m).2) = some d := by
    cases hcs : (collectConstraints validation_fields m).1 with
    | nil =>
      rw [appendValidation_nil, hdesc1, hd]
    | cons c rest =>
      rw [← hcs]
      rw [jget_appendValidation_desc _ _ (by rw [hcs]; simp)]
      rw [hdesc1, hd]
      cases d with
      | str s => exact absurd rfl (hnstr s)
      | null => rfl
      | bool b => rfl
      | num n => rfl
      | arr l => rfl
      | obj o => rfl
  have hd4 : jget "description" (normalizeTypeField (removeKeys other_fields_to_remove
      (appendValidation (collectConstraints validation_fields m).1
        (collectConstraints validation_fields m).2))) = some d := by
    rw [jget_normalizeTypeField, if_neg (by decide),
      jget_removeKeys_not_mem _ _ _ (by decide), hd2]
  have hkey : hasKey "description" m5 = true := by
    rw [optMapEntries_hasKey _ _ _ h1, hasKey, hd4]
    rfl
  obtain ⟨d2, hd2v⟩ := (hasKey_true_iff ..).mp hkey
  have hfd : clean_json_schema_recursive fuel d = some d2 := by
    have hj := optMapEntries_jget _ _ _ h1 "description"
    rw [hd4] at hj
    rw [hd2v] at hj
    simpa using hj.symm
  refine ⟨m5, d2, hw.symm, hfd, hd2v, ?_, ?_⟩
  · intro fl hfl
    have h10 : fl.1 ∈ validation_fields.map Prod.fst := List.mem_map_of_mem Prod.fst hfl
    rw [optMapEntries_hasKey _ _ _ h1, hasKey_normalizeTypeField,
      hasKey_removeKeys_not_mem _ _ _ (vf_names_not_other fl.1 h10),
      hasKey_appendValidation_ne _ _ _ (vf_names_ne_desc fl.1 h10)]
    exact hasKey_collectConstraints_of_mem validation_fields m fl.1 fl.2
      (by rw [Prod.mk.eta]; exact hfl)
  · intro hnarr hnobj
    cases d with
    | str s => exact absurd rfl (hnstr s)
    | arr l => exact absurd rfl (hnarr l)
    | obj o => exact absurd rfl (hnobj o)
    | null =>
      cases fuel with
      | zero => simp [clean_json_schema_recursive] at hfd
      | succ g =>
        rw [cleanRec_null] at hfd
        injection hfd with hfd
        exact hfd.symm
    | bool b =>
      cases fuel with
      | zero => simp [clean_json_schema_recursive] at hfd
      | succ g =>
        rw [cleanRec_bool] at hfd
        injection hfd with hfd
        exact hfd.symm
    | num n =>
      cases fuel with
      | zero => simp [clean_json_schema_recursive] at hfd
      | succ g =>
        rw [cleanRec_num] at hfd
        injection hfd with hfd
        exact hfd.symm

/-- Claim C10, witness: the amended statement at the concrete node
`{"minimum": 2, "description": 7}`. -/
theorem C10_witness :
    ∃ m' d2, (Json.obj [("description", Json.num 7)] : Json) = Json.obj m' ∧
      clean_json_schema_recursive 2 (Json.num 7) = some d2 ∧
      jget "description" m' = some d2 ∧
      (∀ fl ∈ validation_fields, hasKey fl.1 m' = false) ∧
      ((∀ l0, (Json.num 7 : Json) ≠ Json.arr l0) →
        (∀ o0, (Json.num 7 : Json) ≠ Json.obj o0) → d2 = Json.num 7) :=
  C10_theorem 2 [("minimum", Json.num 2), ("description", Json.num 7)]
    (Json.obj [("description", Json.num 7)]) (Json.num 7) rfl rfl (fun s => by simp)
